import Mathlib

/-!
Verification of the OMG-WTF-8 string module
(`src/libstd/sys_common/wtf8.rs`).

Byte strings are modelled as `List Nat` whose elements are byte values
(`< 256`); 16-bit code units are `Nat` values `< 2 ^ 16`.  Machine integer
casts (`as u8`, `as u16`) are modelled by `% 256` / `% 2 ^ 16`, and the
release-mode wrapping subtraction on `u32` by `(x + 2 ^ 32 - k) % 2 ^ 32`.
Surrogate values (`HighSurrogate` / `LowSurrogate` in the source, which wrap
`NonZeroU16`) are modelled as plain `Nat`; the non-zero invariant is carried
by the `Option`-returning constructors, exactly as in the source.
Functions that can panic are modelled with an `Option`/`Except` result where
the panic matters (`none` = panic).
-/

namespace Wtf8

/-- Decoding of a `HighSurrogate` internal value into its canonical 3-byte
WTF-8 form, from `HighSurrogate::decode`: `[0xed, (c >> 8) as u8, c as u8]`. -/
def HighSurrogate.decode (c : Nat) : List Nat :=
  [0xed, (c >>> 8) % 256, c % 256]

/-- Decoding of a `LowSurrogate` internal value into its canonical 3-byte
WTF-8 form, from `LowSurrogate::decode`: `[0xed, (c >> 8) as u8, c as u8]`. -/
def LowSurrogate.decode (c : Nat) : List Nat :=
  [0xed, (c >>> 8) % 256, c % 256]

/-- From `decode_surrogate_pair`: combines a high and a low surrogate
(internal representations) into the 4-byte UTF-8 sequence of the paired
supplementary code point.  The result of the source function is `[u8; 4]`
obtained by transmuting `u32::from_be(combined)`, i.e. the big-endian bytes
of `combined`. -/
def decode_surrogate_pair (high low : Nat) : List Nat :=
  let lo := low
  let hi := high + 0x100
  let combined :=
    (lo &&& 0xfff) ||| ((hi <<< 12) &&& 0x303000) ||| ((hi <<< 14) &&& 0x70f0000) ||| 0xf0808000
  [(combined >>> 24) % 256, (combined >>> 16) % 256, (combined >>> 8) % 256, combined % 256]

/-- From `ThreeByteSeq::new`: three consecutive bytes viewed as a 24-bit
big-endian integer. -/
def ThreeByteSeq.new (b0 b1 b2 : Nat) : Nat :=
  (b0 <<< 16) ||| (b1 <<< 8) ||| b2

/-- The 3-byte window of `l` starting at byte offset `i` (the source always
builds `ThreeByteSeq` from a slice with at least 3 bytes in range; out of
range accesses are modelled by the default byte 0). -/
def window3 (l : List Nat) (i : Nat) : Nat :=
  ThreeByteSeq.new (l.getD i 0) (l.getD (i + 1) 0) (l.getD (i + 2) 0)

/-- From `ThreeByteSeq::to_high_surrogate_from_split_repr_unchecked`.  The
`- 0x100` is a `u32` subtraction: in release mode it wraps modulo `2 ^ 32`,
which is the behaviour modelled here; the final `as u16` is `% 2 ^ 16`. -/
def ThreeByteSeq.to_high_surrogate_from_split_repr_unchecked (n : Nat) : Nat :=
  (((((n >>> 4) &&& 0x303) ||| ((n >>> 6) &&& 0x3c3c)) + (2 ^ 32 - 0x100)) % 2 ^ 32
    ||| 0xa080) % 2 ^ 16

/-- From `ThreeByteSeq::to_high_surrogate`: the match arms are the ranges
`0xeda000..=0xedafff` (canonical) and `0xf00000..=0xffffffff` (split); the
`NonZeroU16::new(..).map(HighSurrogate)` step maps 0 to `none`. -/
def ThreeByteSeq.to_high_surrogate (n : Nat) : Option Nat :=
  let surrogate_value : Nat :=
    if 0xeda000 ≤ n ∧ n ≤ 0xedafff then n % 2 ^ 16
    else if 0xf00000 ≤ n then ThreeByteSeq.to_high_surrogate_from_split_repr_unchecked n
    else 0
  if surrogate_value = 0 then none else some surrogate_value

/-- From `ThreeByteSeq::to_low_surrogate`: the match arms are the ranges
`0xedb000..=0xedffff` (canonical, yielding `self.0`) and
`0x800000..=0xbfffff` (split, yielding `self.0 | 0xb000`); the final value
is cast `as u16` before the `NonZeroU16` check. -/
def ThreeByteSeq.to_low_surrogate (n : Nat) : Option Nat :=
  let surrogate_value : Nat :=
    if 0xedb000 ≤ n ∧ n ≤ 0xedffff then n
    else if 0x800000 ≤ n ∧ n ≤ 0xbfffff then n ||| 0xb000
    else 0
  if surrogate_value % 2 ^ 16 = 0 then none else some (surrogate_value % 2 ^ 16)

/-- From `ThreeByteSeq::as_code_unit`: extracts a WTF-16 code unit from the
3-byte window; the arms are matched in source order (`0xf00000...`, then
`0x800000...0xbfffff`, then the default), and the result is cast `as u16`. -/
def ThreeByteSeq.as_code_unit (n : Nat) : Nat :=
  (if 0xf00000 ≤ n then
    (((n >>> 4) &&& 3) ||| ((n >>> 6) &&& 0xfc) ||| ((n >>> 8) &&& 0x700)) + 0xd7c0
  else if 0x800000 ≤ n ∧ n ≤ 0xbfffff then
    (n &&& 0x3f) ||| ((n >>> 2) &&& 0x3c0) ||| 0xdc00
  else
    (n &&& 0x3f) ||| ((n >>> 2) &&& 0xfc0) ||| ((n >>> 4) &&& 0xf000)) % 2 ^ 16

/-- From the `IndexType` enum. -/
inductive IndexType where
  | CharBoundary
  | FourByteSeq1
  | FourByteSeq2
  | FourByteSeq3
  | Interior
  | OutOfBounds
deriving DecidableEq, Repr

/-- The `mem::transmute(offset as u8)` step of `classify_index`, mapping a
scan distance in `{1, 2, 3}` to the corresponding `FourByteSeq` variant. -/
def IndexType.ofOffset (d : Nat) : IndexType :=
  if d = 1 then .FourByteSeq1 else if d = 2 then .FourByteSeq2 else .FourByteSeq3

/-- From `classify_index`: classifies the kind of index in the string.
`min_offset = (index + 3).saturating_sub(len)` is the natural subtraction
`(index + 3) - len`, and `max_offset = index.min(3)`; the loop
`for offset in min_offset..max_offset` with its early return is the first
offset in that range whose byte `slice[index - (offset + 1)]` is at least
`0xf0` (`List.find?` over the range). -/
def classify_index (slice : List Nat) (index : Nat) : IndexType :=
  let len := slice.length
  if index = 0 ∨ index = len then IndexType.CharBoundary
  else
    match slice[index]? with
    | some b =>
      if 0x80 ≤ b ∧ b ≤ 0xbf then
        let min_offset := (index + 3) - len
        let max_offset := min index 3
        match (List.range' min_offset (max_offset - min_offset)).find?
            (fun off => 0xf0 ≤ slice.getD (index - (off + 1)) 0) with
        | some off => IndexType.ofOffset (off + 1)
        | none => IndexType.Interior
      else IndexType.CharBoundary
    | none => IndexType.OutOfBounds

/-- From `impl ops::Index<ops::Range<usize>> for Wtf8`: an empty range
returns the empty string without classifying; otherwise both endpoints are
classified, `FourByteSeq2` endpoints are adjusted by one byte, any other
non-boundary classification panics (`slice_error_fail`, modelled by `none`),
and the final `slice_unchecked(begin, end)` takes the raw byte range
(`end - begin` underflows, hence panics, when `begin > end`; also `none`). -/
def indexRange (l : List Nat) (b e : Nat) : Option (List Nat) :=
  if b = e then some []
  else
    let bAdj : Option Nat :=
      match classify_index l b with
      | .FourByteSeq2 => some (b - 1)
      | .CharBoundary => some b
      | _ => none
    let eAdj : Option Nat :=
      match classify_index l e with
      | .FourByteSeq2 => some (e + 1)
      | .CharBoundary => some e
      | _ => none
    match bAdj, eAdj with
    | some b2, some e2 => if b2 ≤ e2 then some ((l.drop b2).take (e2 - b2)) else none
    | _, _ => none

/-- From `Wtf8::next_surrogate`: scans forward from `pos` for the first
surrogate (canonical, or a split fragment: a continuation byte at a scan
position, or a `0xf0..` lead whose sequence is cut at the end of the
string), returning its position and code unit.  The source indexes
`self.bytes[pos + 1]` (in bounds for well-formed strings); out-of-bounds
accesses are modelled by the default byte 0. -/
def next_surrogate (l : List Nat) (pos : Nat) : Option (Nat × Nat) :=
  match h : l[pos]? with
  | none => none
  | some b =>
    if b ≤ 0x7f then next_surrogate l (pos + 1)
    else if b ≤ 0xbf then some (pos, ThreeByteSeq.as_code_unit (window3 l pos))
    else if b ≤ 0xdf then next_surrogate l (pos + 2)
    else if b ≤ 0xef then
      if b = 0xed ∧ 0xa0 ≤ l.getD (pos + 1) 0 then
        some (pos, ThreeByteSeq.as_code_unit (window3 l pos))
      else next_surrogate l (pos + 3)
    else
      if l.length = pos + 3 then some (pos, ThreeByteSeq.as_code_unit (window3 l pos))
      else next_surrogate l (pos + 4)
termination_by l.length - pos
decreasing_by
  all_goals
    have hp : pos < l.length := by
      by_contra hc
      rw [List.getElem?_eq_none (by omega)] at h
      exact Option.noConfusion h
    omega

/-- From `Wtf8::split_off_first_low_surrogate`: reads the first 3 bytes
(`none` if fewer), and on success returns the low surrogate together with
the remainder of the string. -/
def split_off_first_low_surrogate (l : List Nat) : Option (Nat × List Nat) :=
  match l with
  | b0 :: b1 :: b2 :: rest =>
    (ThreeByteSeq.to_low_surrogate (ThreeByteSeq.new b0 b1 b2)).map fun s => (s, rest)
  | _ => none

/-- From `Wtf8::split_off_last_high_surrogate`: reads the last 3 bytes
(`none` if fewer, via `checked_sub`), and on success returns the high
surrogate together with the front of the string. -/
def split_off_last_high_surrogate (l : List Nat) : Option (Nat × List Nat) :=
  if 3 ≤ l.length then
    (ThreeByteSeq.to_high_surrogate (window3 l (l.length - 3))).map
      fun s => (s, l.take (l.length - 3))
  else none

/-- From `Wtf8::canonicalize`: splits the string into the leading low
surrogate, the well-formed middle, and the ending high surrogate. -/
def canonicalize (l : List Nat) : Option Nat × List Nat × Option Nat :=
  match split_off_first_low_surrogate l with
  | some (low, r1) =>
    match split_off_last_high_surrogate r1 with
    | some (high, mid) => (some low, mid, some high)
    | none => (some low, r1, none)
  | none =>
    match split_off_last_high_surrogate l with
    | some (high, mid) => (none, mid, some high)
    | none => (none, l, none)

/-- From `Wtf8::canonicalize_in_place`: rewrites a split low-surrogate
fragment at the front (first byte in `0x80..0xbf`, i.e. `(b as i8) < -0x40`)
and a split high-surrogate fragment at the back (byte `len - 3` at least
`0xf0`) into canonical 3-byte form, in place. -/
def canonicalize_in_place (l : List Nat) : List Nat :=
  if l.length < 3 then l
  else
    let l1 :=
      if 0x80 ≤ l.getD 0 0 ∧ l.getD 0 0 ≤ 0xbf then
        (l.set 0 0xed).set 1 ((l.getD 1 0) ||| 0x30)
      else l
    if 0xf0 ≤ l1.getD (l1.length - 3) 0 then
      let cu := ThreeByteSeq.to_high_surrogate_from_split_repr_unchecked
        (window3 l1 (l1.length - 3))
      ((l1.set (l1.length - 3) 0xed).set (l1.length - 2) ((cu >>> 8) % 256)).set
        (l1.length - 1) (cu % 256)
    else l1

/-- From `Wtf8Buf::push_low_surrogate`: if the buffer ends in a high
surrogate the pair is recombined into the 4-byte sequence, otherwise the
canonical 3 bytes of the low surrogate are appended. -/
def push_low_surrogate (buf : List Nat) (trail : Nat) : List Nat :=
  match split_off_last_high_surrogate buf with
  | some (lead, rest) => rest ++ decode_surrogate_pair lead trail
  | none => buf ++ LowSurrogate.decode trail

/-- From `Wtf8Buf::push_wtf8`: canonicalizes `other` into
`(low, mid, high)`, pushes the low surrogate through the concatenation
check, then the middle bytes, then the canonical bytes of the high
surrogate. -/
def push_wtf8 (buf other : List Nat) : List Nat :=
  match canonicalize other with
  | (low, mid, high) =>
    let b1 := match low with | some l => push_low_surrogate buf l | none => buf
    let b2 := b1 ++ mid
    match high with | some h => b2 ++ HighSurrogate.decode h | none => b2

/-- From `Wtf8Buf::push_str`: appends the UTF-8 bytes of `other`. -/
def push_str (buf other : List Nat) : List Nat := buf ++ other

/-- Modelled from the spec: `char::encode_utf8` (libcore, not among the
sources) encodes a code point in standard UTF-8 by range — 1 byte below
`0x80`, 2 below `0x800`, 3 below `0x10000` (surrogate code points included,
giving the canonical WTF-8 surrogate form), else 4. -/
def encodeUtf8 (c : Nat) : List Nat :=
  if c < 0x80 then [c]
  else if c < 0x800 then [0xc0 + c / 64, 0x80 + c % 64]
  else if c < 0x10000 then [0xe0 + c / 4096, 0x80 + c / 64 % 64, 0x80 + c % 64]
  else [0xf0 + c / 262144, 0x80 + c / 4096 % 64, 0x80 + c / 64 % 64, 0x80 + c % 64]

/-- From `Wtf8Buf::push_code_point_unchecked`: appends the UTF-8 bytes of
the code point, with no concatenation check. -/
def push_code_point_unchecked (buf : List Nat) (c : Nat) : List Nat :=
  buf ++ encodeUtf8 c

/-- From `Wtf8Buf::push_char`: `push_code_point_unchecked(c as u32)`. -/
def push_char (buf : List Nat) (c : Nat) : List Nat :=
  push_code_point_unchecked buf c

/-- From `Wtf8Buf::truncate`: a `CharBoundary` index truncates directly, a
`FourByteSeq2` index truncates one byte further and canonicalizes in place,
anything else panics (modelled by `none`). -/
def truncate (buf : List Nat) (new_len : Nat) : Option (List Nat) :=
  match classify_index buf new_len with
  | .CharBoundary => some (buf.take new_len)
  | .FourByteSeq2 => some (canonicalize_in_place (buf.take (new_len + 1)))
  | _ => none

/-- From `Wtf8Buf::into_string`: `Ok` with the same bytes when
`next_surrogate(0)` finds nothing, otherwise `Err` with the original buffer
(`self` returned unchanged). -/
def into_string (buf : List Nat) : Except (List Nat) (List Nat) :=
  match next_surrogate buf 0 with
  | none => Except.ok buf
  | some _ => Except.error buf

/-- From `Wtf8Buf::from_str` / `Wtf8Buf::from_string`: both take the UTF-8
bytes of the argument as the buffer contents (one copies, one moves; the
byte contents are identical). -/
def from_str (s : List Nat) : List Nat := s

/-- From `Wtf8Buf::from_string`. -/
def from_string (s : List Nat) : List Nat := s

/-- Whether a 16-bit code unit is a high (leading) surrogate. -/
def isHigh (u : Nat) : Prop := 0xd800 ≤ u ∧ u < 0xdc00

/-- Whether a 16-bit code unit is a low (trailing) surrogate. -/
def isLow (u : Nat) : Prop := 0xdc00 ≤ u ∧ u < 0xe000

instance (u : Nat) : Decidable (isHigh u) := by unfold isHigh; infer_instance

instance (u : Nat) : Decidable (isLow u) := by unfold isLow; infer_instance

/-- From `Wtf8Buf::from_wide`, with `char::decode_utf16` modelled from the
spec (libcore, not among the sources): a high surrogate immediately followed
by a low surrogate decodes to the paired supplementary code point (pushed
with `push_char`); every other unit — BMP scalar or unpaired surrogate — is
pushed alone (`push_code_point_unchecked`, skipping the concatenation
check).  Every push appends `encodeUtf8` of the code point. -/
def from_wide : List Nat → List Nat
  | [] => []
  | u :: rest =>
    if isHigh u then
      match rest with
      | l :: rest2 =>
        if isLow l then
          encodeUtf8 (0x10000 + (u - 0xd800) * 1024 + (l - 0xdc00)) ++ from_wide rest2
        else encodeUtf8 u ++ from_wide (l :: rest2)
      | [] => encodeUtf8 u
    else encodeUtf8 u ++ from_wide rest

/-- Modelled from the spec: `core::str::next_code_point` (libcore, not among
the sources) decodes one code point from the front of the byte stream: an
ASCII byte alone; otherwise the lead's payload bits are accumulated with the
payload bits of 1, 2 or 3 following bytes according to the lead's range
(missing bytes default to 0, as `unwrap_or_0` does).  Returns the decoded
code point together with the number of bytes consumed. -/
def nextCodePoint : List Nat → Option (Nat × Nat)
  | [] => none
  | x :: rest =>
    if x < 0x80 then some (x, 1)
    else
      let y := rest.getD 0 0
      if x < 0xe0 then some ((x % 32) * 64 + y % 64, 2)
      else
        let z := rest.getD 1 0
        let yz := (y % 64) * 64 + z % 64
        if x < 0xf0 then some ((x % 32) * 4096 + yz, 3)
        else
          let w := rest.getD 2 0
          some ((x % 32 % 8) * 262144 + yz * 64 + w % 64, 4)

/-- Modelled from the spec: `char::encode_utf16` (libcore, not among the
sources) — one unit below `0x10000`, otherwise the standard surrogate
pair. -/
def encodeUtf16 (c : Nat) : List Nat :=
  if c < 0x10000 then [c]
  else [0xd800 + (c - 0x10000) / 1024, 0xdc00 + (c - 0x10000) % 1024]

/-- From `EncodeWide::next` (collected into a list): a continuation byte at
the cursor, or a `0xf0..` lead with exactly 3 bytes remaining, is a split
surrogate fragment whose code unit is emitted from the 3-byte window
(`ThreeByteSeq::new` panics, modelled `none`, if fewer than 3 bytes remain);
otherwise one code point is decoded and its UTF-16 form emitted (both units
of a supplementary pair: the second is buffered in `extra` and emitted by
the following call). -/
def encode_wide : List Nat → Option (List Nat)
  | [] => some []
  | b :: rest =>
    if 0x80 ≤ b ∧ b ≤ 0xbf then
      match rest with
      | b1 :: b2 :: rest2 =>
        (encode_wide rest2).map fun r =>
          ThreeByteSeq.as_code_unit (ThreeByteSeq.new b b1 b2) :: r
      | _ => none
    else if 0xf0 ≤ b ∧ rest.length = 2 then
      match rest with
      | b1 :: b2 :: rest2 =>
        (encode_wide rest2).map fun r =>
          ThreeByteSeq.as_code_unit (ThreeByteSeq.new b b1 b2) :: r
      | _ => none
    else
      match nextCodePoint (b :: rest) with
      | some (cp, k) =>
        (encode_wide (rest.drop (k - 1))).map fun r => encodeUtf16 cp ++ r
      | none => some []
termination_by l => l.length
decreasing_by
  · simp; omega
  · simp; omega
  · simp [List.length_drop]; omega

/-- From `impl Hash for Wtf8`: the sequence of `Hasher::write` chunks fed to
the hasher — the canonical bytes of the leading low surrogate (if any), the
middle bytes, the canonical bytes of the trailing high surrogate (if any),
and the `0xfe` marker byte. -/
def hashChunks (l : List Nat) : List (List Nat) :=
  match canonicalize l with
  | (low, mid, high) =>
    (match low with | some s => [LowSurrogate.decode s] | none => []) ++
    [mid] ++
    (match high with | some s => [HighSurrogate.decode s] | none => []) ++
    [[0xfe]]

/-- From `impl PartialEq for Wtf8`: equality compares the canonicalized
triples. -/
def wtf8Eq (a b : List Nat) : Prop := canonicalize a = canonicalize b

instance (a b : List Nat) : Decidable (wtf8Eq a b) := by unfold wtf8Eq; infer_instance

/-! General-purpose helper lemmas. -/

theorem lor_eq_add_of_disjoint {a b n : Nat} (ha : a % 2 ^ n = 0) (hb : b < 2 ^ n) :
    a ||| b = a + b := by
  obtain ⟨k, hk⟩ := Nat.dvd_of_mod_eq_zero ha
  subst hk
  apply Nat.eq_of_testBit_eq
  intro j
  rw [Nat.testBit_lor, Nat.testBit_mul_pow_two_add _ hb j, Nat.testBit_mul_pow_two]
  rcases Nat.lt_or_ge j n with h | h
  · simp [h, Nat.not_le.mpr h]
  · have hbj : b.testBit j = false :=
      Nat.testBit_eq_false_of_lt (lt_of_lt_of_le hb (Nat.pow_le_pow_right (by norm_num) h))
    simp [h, hbj, Nat.not_lt.mpr h]

theorem lor_mod_two_pow_ne_zero {m i w : Nat} (x : Nat) (hiw : i < w)
    (hm : m.testBit i = true) : (x ||| m) % 2 ^ w ≠ 0 := by
  intro h
  have hbit : ((x ||| m) % 2 ^ w).testBit i = true := by
    rw [Nat.testBit_mod_two_pow, Nat.testBit_lor, hm]
    simp [hiw]
  rw [h] at hbit
  simp [Nat.zero_testBit] at hbit

theorem find?_range'_eq_some {p : Nat → Bool} :
    ∀ (n s d : Nat), s ≤ d → d < s + n → p d = true →
      (∀ j, s ≤ j → j < d → p j = false) →
      (List.range' s n).find? p = some d := by
  intro n
  induction n with
  | zero => intro s d h1 h2 h3 h4; exact absurd h2 (by omega)
  | succ n ih =>
    intro s d hsd hdn hp hmin
    rw [List.range'_succ]
    rcases Nat.eq_or_lt_of_le hsd with he | hlt
    · rw [← he] at hp
      rw [List.find?_cons_of_pos _ hp, he]
    · rw [List.find?_cons_of_neg _ (by simp [hmin s (le_refl s) hlt])]
      exact ih (s + 1) d (by omega) (by omega) hp fun j hj1 hj2 => hmin j (by omega) hj2

/-- The last two bytes of the canonical 3-byte WTF-8 encoding of a surrogate
code point `c`, combined into one 16-bit value: this is the internal
representation of `HighSurrogate` / `LowSurrogate` (for example U+D800 is
`ed a0 80`, stored as `0xa080`). -/
def surrogateInternal (c : Nat) : Nat := (0x80 + c / 64 % 64) * 256 + (0x80 + c % 64)

/-- Closed radix form of the `x`-dependent part of `decode_surrogate_pair`'s
combined word, for a high surrogate U+D800 + x. -/
def dspPx (x : Nat) : Nat :=
  (240 + (64 + x) / 256) * 16777216 + (128 + (16 + x / 4) % 64) * 65536 +
    (128 + 16 * (x % 4)) * 256

set_option maxRecDepth 4000 in
theorem dspPx_eval : ∀ x : Fin 1024,
    (((0xa180 + (x.val / 64) * 256 + x.val % 64) <<< 12) &&& 0x303000) |||
      ((((0xa180 + (x.val / 64) * 256 + x.val % 64) <<< 14) &&& 0x70f0000) ||| 0xf0808000) =
      dspPx x.val := by decide

set_option maxRecDepth 4000 in
theorem dspLoMask_eval : ∀ y : Fin 1024,
    ((0xb080 + (y.val / 64) * 256 + y.val % 64) &&& 0xfff) =
      0x80 + (y.val / 64) * 256 + y.val % 64 := by decide

/-- Correctness of the bit redistribution in `decode_surrogate_pair`: for a
high surrogate `hc` and a low surrogate `lc` (given by their canonical-byte
internal representations) it produces exactly the 4-byte UTF-8 encoding of
the combined supplementary scalar `0x10000 + (hc - 0xD800) * 1024 +
(lc - 0xDC00)`. -/
theorem dsp_correct (hc lc : Nat) (h1 : 0xd800 ≤ hc) (h2 : hc < 0xdc00)
    (h3 : 0xdc00 ≤ lc) (h4 : lc < 0xe000) :
    decode_surrogate_pair (surrogateInternal hc) (surrogateInternal lc) =
      encodeUtf8 (0x10000 + (hc - 0xd800) * 1024 + (lc - 0xdc00)) := by
  set x := hc - 0xd800 with hxdef
  set y := lc - 0xdc00 with hydef
  have hx : x < 1024 := by omega
  have hy : y < 1024 := by omega
  have hhi : surrogateInternal hc + 0x100 = 0xa180 + (x / 64) * 256 + x % 64 := by
    unfold surrogateInternal
    omega
  have hlo : surrogateInternal lc = 0xb080 + (y / 64) * 256 + y % 64 := by
    unfold surrogateInternal
    omega
  have hA : surrogateInternal lc &&& 0xfff = 0x80 + (y / 64) * 256 + y % 64 := by
    rw [hlo]; exact dspLoMask_eval ⟨y, hy⟩
  have hP : ((surrogateInternal hc + 0x100) <<< 12) &&& 0x303000 |||
      (((surrogateInternal hc + 0x100) <<< 14) &&& 0x70f0000 ||| 0xf0808000) = dspPx x := by
    rw [hhi]; exact dspPx_eval ⟨x, hx⟩
  have hcomb : (surrogateInternal lc &&& 0xfff) |||
      ((surrogateInternal hc + 0x100) <<< 12) &&& 0x303000 |||
      ((surrogateInternal hc + 0x100) <<< 14) &&& 0x70f0000 ||| 0xf0808000 =
      dspPx x + (0x80 + (y / 64) * 256 + y % 64) := by
    rw [Nat.lor_assoc, Nat.lor_assoc, hA, hP]
    rw [Nat.lor_comm]
    refine @lor_eq_add_of_disjoint _ _ 12 ?_ ?_
    · unfold dspPx; omega
    · omega
  have hb1 : (65536 + x * 1024 + y) / 262144 = (64 + x) / 256 := by omega
  have hb2 : (65536 + x * 1024 + y) / 4096 % 64 = (16 + x / 4) % 64 := by omega
  have hb3 : (65536 + x * 1024 + y) / 64 % 64 = 16 * (x % 4) + y / 64 := by omega
  have hb4 : (65536 + x * 1024 + y) % 64 = y % 64 := by omega
  have hc4 : ¬(0x10000 + x * 1024 + y < 0x80) := by omega
  have hc5 : ¬(0x10000 + x * 1024 + y < 0x800) := by omega
  have hc6 : ¬(0x10000 + x * 1024 + y < 0x10000) := by omega
  simp only [decode_surrogate_pair]
  rw [hcomb]
  rw [encodeUtf8, if_neg hc4, if_neg hc5, if_neg hc6]
  rw [Nat.shiftRight_eq_div_pow, Nat.shiftRight_eq_div_pow, Nat.shiftRight_eq_div_pow]
  rw [hb1, hb2, hb3, hb4]
  unfold dspPx
  set A := (64 + x) / 256 with hAd
  set B := (16 + x / 4) % 64 with hBd
  set C := x % 4 with hCd
  set D := y / 64 with hDd
  set E := y % 64 with hEd
  have bA : A ≤ 4 := by omega
  have bB : B < 64 := by omega
  have bC : C < 4 := by omega
  have bD : D < 16 := by omega
  have bE : E < 64 := by omega
  clear_value A B C D E
  clear hAd hBd hCd hDd hEd hcomb hA hP hhi hlo hb1 hb2 hb3 hb4 hc4 hc5 hc6
  simp only [List.cons.injEq, and_true]
  refine ⟨by omega, by omega, by omega, by omega⟩

/-- The split-representation high-surrogate value is never zero (bit 7 is
set by the `| 0xa080`). -/
theorem to_high_surrogate_from_split_repr_ne_zero (n : Nat) :
    ThreeByteSeq.to_high_surrogate_from_split_repr_unchecked n ≠ 0 := by
  unfold ThreeByteSeq.to_high_surrogate_from_split_repr_unchecked
  exact @lor_mod_two_pow_ne_zero 0xa080 7 16 _ (by norm_num) (by decide)

/-! Claim theorems. -/

/-- C10: for every view `s` and every index `i`, indexing `s` with the empty
range `i..i` returns the empty view without classifying or bounds-checking
`i`: no boundary panic occurs even when `i` is an interior byte, an illegal
position, or beyond the end of `s`. -/
theorem c10_empty_range_skips_checks (l : List Nat) (i : Nat) :
    indexRange l i i = some [] := by
  simp [indexRange]

/-- C4 counterexample: at the 3-byte window `0xEDC000` (bytes
`ED C0 00`), which lies outside all four ranges named by the claim,
`to_low_surrogate` nevertheless returns a surrogate, because the source's
canonical-low match arm is `0xedb000..=0xedffff`, not
`0xedb000..=0xedbfff`. -/
theorem c4_counterexample :
    (ThreeByteSeq.to_low_surrogate 0xedc000).isSome = true ∧
    ¬(0xeda000 ≤ 0xedc000 ∧ 0xedc000 ≤ 0xedafff) ∧
    ¬(0xf00000 ≤ (0xedc000 : Nat)) ∧
    ¬(0xedb000 ≤ 0xedc000 ∧ 0xedc000 ≤ 0xedbfff) ∧
    ¬(0x800000 ≤ 0xedc000 ∧ 0xedc000 ≤ 0xbfffff) := by
  decide

/-- C4 (amended): for every 3-byte window `n`, `to_high_surrogate` returns a
surrogate exactly when `n` is in `0xEDA000..=0xEDAFFF` (canonical high) or
`0xF00000..=0xFFFFFF` (split high), and `to_low_surrogate` returns a
surrogate exactly when `n` is in `0xEDB000..=0xEDFFFF` (canonical low — the
code's arm extends to `0xEDFFFF`, wider than the claimed `0xEDBFFF`) or
`0x800000..=0xBFFFFF` (split low); outside these ranges both operations
yield no surrogate. -/
theorem c4_surrogate_ranges (n : Nat) (hn : n < 2 ^ 24) :
    ((ThreeByteSeq.to_high_surrogate n).isSome ↔
      (0xeda000 ≤ n ∧ n ≤ 0xedafff) ∨ 0xf00000 ≤ n)
  ∧ ((ThreeByteSeq.to_low_surrogate n).isSome ↔
      (0xedb000 ≤ n ∧ n ≤ 0xedffff) ∨ (0x800000 ≤ n ∧ n ≤ 0xbfffff)) := by
  constructor
  · by_cases hA : 0xeda000 ≤ n ∧ n ≤ 0xedafff
    · have hnz : ¬(n % 65536 = 0) := by omega
      simp [ThreeByteSeq.to_high_surrogate, hA, hnz]
    · by_cases hB : 0xf00000 ≤ n
      · have hnz := to_high_surrogate_from_split_repr_ne_zero n
        simp [ThreeByteSeq.to_high_surrogate, hA, hB, hnz]
      · simp only [ThreeByteSeq.to_high_surrogate, hA, hB, if_false]
        simp
  · by_cases hA : 0xedb000 ≤ n ∧ n ≤ 0xedffff
    · have hnz : ¬(n % 65536 = 0) := by omega
      simp [ThreeByteSeq.to_low_surrogate, hA, hnz]
    · by_cases hB : 0x800000 ≤ n ∧ n ≤ 0xbfffff
      · have hnz : ¬((n ||| 0xb000) % 65536 = 0) := by
          have := @lor_mod_two_pow_ne_zero 0xb000 12 16 n (by norm_num) (by decide)
          simpa using this
        simp [ThreeByteSeq.to_low_surrogate, hA, hB, hnz]
      · simp only [ThreeByteSeq.to_low_surrogate, hA, hB, if_false]
        simp

/-- C4 witness: the amended theorem applied at the canonical-low boundary
window `0xEDB000`. -/
theorem c4_surrogate_ranges_witness :
    (ThreeByteSeq.to_low_surrogate 0xedb000).isSome ↔
      (0xedb000 ≤ 0xedb000 ∧ 0xedb000 ≤ 0xedffff) ∨
      (0x800000 ≤ 0xedb000 ∧ 0xedb000 ≤ 0xbfffff) :=
  (c4_surrogate_ranges 0xedb000 (by norm_num)).2

/-- C5 counterexample: in the 2-byte buffer `F0 90`, offset 1 holds the
continuation byte `0x90` and the lead byte `0xF0` (a byte `≥ 0xF0`) sits at
distance 1, so the claimed backward scan would classify `FourByteSeq1`; the
code instead answers `Interior`, because its scan skips distances `d` with
`index - d + 4 > len` (here `min_offset = 2` leaves no offsets to scan). -/
theorem c5_counterexample :
    classify_index [0xf0, 0x90] 1 = IndexType.Interior ∧
    (0x80 ≤ 0x90 ∧ 0x90 ≤ 0xbf) ∧
    [0xf0, 0x90].getD (1 - 1) 0 = 0xf0 ∧
    IndexType.Interior ≠ IndexType.FourByteSeq1 := by
  decide

/-- C5 (amended): `classify_index` returns `CharBoundary` at offset 0 and at
the length; past the end it returns `OutOfBounds`; at an in-bounds offset
whose byte is not a continuation byte it returns `CharBoundary`; at a
continuation byte it returns `FourByteSeq d` exactly when the backward scan
finds a byte `≥ 0xF0` at the smallest distance `d` among the distances it
considers — those with `d ≤ min(index, 3)` and (the correction)
`index + 3 - d ≤ len`, i.e. `d > min_offset = (index + 3) - len`, so lead
positions without room for a full 4-byte sequence before the end are
skipped — and `Interior` when no considered distance has such a byte. -/
theorem c5_classify_index_cases (l : List Nat) (i : Nat) :
    ((i = 0 ∨ i = l.length) → classify_index l i = IndexType.CharBoundary)
  ∧ (l.length < i → classify_index l i = IndexType.OutOfBounds)
  ∧ (∀ b, ¬(i = 0 ∨ i = l.length) → l[i]? = some b → ¬(0x80 ≤ b ∧ b ≤ 0xbf) →
      classify_index l i = IndexType.CharBoundary)
  ∧ (∀ b d, ¬(i = 0 ∨ i = l.length) → l[i]? = some b → 0x80 ≤ b → b ≤ 0xbf →
      (i + 3) - l.length < d → d ≤ min i 3 → 0xf0 ≤ l.getD (i - d) 0 →
      (∀ e, (i + 3) - l.length < e → e < d → l.getD (i - e) 0 < 0xf0) →
      classify_index l i = IndexType.ofOffset d)
  ∧ (∀ b, ¬(i = 0 ∨ i = l.length) → l[i]? = some b → 0x80 ≤ b → b ≤ 0xbf →
      (∀ d, (i + 3) - l.length < d → d ≤ min i 3 → l.getD (i - d) 0 < 0xf0) →
      classify_index l i = IndexType.Interior) := by
  refine ⟨fun h => by simp [classify_index, h], fun h => ?_, fun b h1 h2 h3 => ?_,
    fun b d h1 h2 h3 h4 h5 h6 h7 h8 => ?_, fun b h1 h2 h3 h4 h5 => ?_⟩
  · have hnone : l[i]? = none := List.getElem?_eq_none (by omega)
    simp only [classify_index, hnone]
    have : ¬(i = 0 ∨ i = l.length) := by omega
    simp [this]
  · simp only [classify_index, h2, h1]
    simp [h3]
  · have hfind : (List.range' ((i + 3) - l.length)
        ((min i 3) - ((i + 3) - l.length))).find?
        (fun off => 0xf0 ≤ l.getD (i - (off + 1)) 0) = some (d - 1) := by
      apply find?_range'_eq_some
      · omega
      · omega
      · simp only [decide_eq_true_eq]
        have : d - 1 + 1 = d := by omega
        rw [this]
        exact h7
      · intro j hj1 hj2
        simp only [decide_eq_false_iff_not, Nat.not_le]
        exact h8 (j + 1) (by omega) (by omega)
    simp only [classify_index, h1, h3, if_false]
    rw [h2]
    simp only [h3, h4, and_self, if_true, hfind]
    have : d - 1 + 1 = d := by omega
    rw [this]
  · have hfind : (List.range' ((i + 3) - l.length)
        ((min i 3) - ((i + 3) - l.length))).find?
        (fun off => 0xf0 ≤ l.getD (i - (off + 1)) 0) = none := by
      rw [List.find?_eq_none]
      intro x hx
      rw [List.mem_range'_1] at hx
      simp only [decide_eq_true_eq, Nat.not_le]
      exact h5 (x + 1) (by omega) (by omega)
    simp only [classify_index, h1, h3, if_false]
    rw [h2]
    simp only [h3, h4, and_self, if_true, hfind]

/-- C5 witness: the amended theorem applied inside the 4-byte sequence of
`F0 90 80 80`, at offset 2 with scan distance 2. -/
theorem c5_classify_index_cases_witness :
    classify_index [0xf0, 0x90, 0x80, 0x80] 2 = IndexType.ofOffset 2 :=
  (c5_classify_index_cases [0xf0, 0x90, 0x80, 0x80] 2).2.2.2.1 0x80 2
    (by decide) (by decide) (by decide) (by decide) (by decide) (by decide) (by decide)
    (by intro e he1 he2; interval_cases e <;> simp_all)

/-- C6: for `i < j`, range indexing classifies both endpoints; an endpoint
classified `FourByteSeq2` is adjusted by one byte (start back, end forward)
before the raw byte sub-range is taken, and any endpoint classified
`FourByteSeq1`, `FourByteSeq3`, `Interior` or `OutOfBounds` makes the call
panic (`slice_error_fail`, reported with the offending offsets; modelled by
`none`). -/
theorem c6_range_index (l : List Nat) (i j : Nat) (hij : i < j) :
    ((classify_index l i = IndexType.CharBoundary ∨
        classify_index l i = IndexType.FourByteSeq2) →
     (classify_index l j = IndexType.CharBoundary ∨
        classify_index l j = IndexType.FourByteSeq2) →
     indexRange l i j = some ((l.drop
        (if classify_index l i = IndexType.FourByteSeq2 then i - 1 else i)).take
        ((if classify_index l j = IndexType.FourByteSeq2 then j + 1 else j) -
          (if classify_index l i = IndexType.FourByteSeq2 then i - 1 else i))))
  ∧ ((¬(classify_index l i = IndexType.CharBoundary ∨
        classify_index l i = IndexType.FourByteSeq2) ∨
      ¬(classify_index l j = IndexType.CharBoundary ∨
        classify_index l j = IndexType.FourByteSeq2)) →
     indexRange l i j = none) := by
  have hne : ¬(i = j) := by omega
  constructor
  · intro hi hj
    rcases hi with hi | hi <;> rcases hj with hj | hj <;>
      simp [indexRange, hne, hi, hj, show i ≤ j by omega, show i ≤ j + 1 by omega,
        show i - 1 ≤ j by omega, show i - 1 ≤ j + 1 by omega]
  · intro hbad
    rcases hbad with hbad | hbad
    · rcases hc : classify_index l i <;> simp [hc, not_or] at hbad <;>
        cases hcj : classify_index l j <;> simp [indexRange, hne, hc, hcj] <;> tauto
    · rcases hc : classify_index l j <;> simp [hc, not_or] at hbad <;>
        cases hci : classify_index l i <;> simp [indexRange, hne, hci, hc] <;> tauto

/-- C6 witness: slicing `😀😂😄` as `s[2..10]` adjusts both `FourByteSeq2`
endpoints and yields the split-form sub-range. -/
theorem c6_range_index_witness :
    indexRange [0xf0, 0x9f, 0x98, 0x80, 0xf0, 0x9f, 0x98, 0x82, 0xf0, 0x9f, 0x98, 0x84]
      2 10 = some [0x9f, 0x98, 0x80, 0xf0, 0x9f, 0x98, 0x82, 0xf0, 0x9f, 0x98] := by
  have h := (c6_range_index
    [0xf0, 0x9f, 0x98, 0x80, 0xf0, 0x9f, 0x98, 0x82, 0xf0, 0x9f, 0x98, 0x84]
    2 10 (by norm_num)).1 (by right; decide) (by right; decide)
  simpa using h

/-- C1: `push_wtf8` decomposes `B` via `canonicalize` into (optional leading
low surrogate, middle bytes, optional trailing high surrogate); when `A`
ends in a high surrogate and `B` begins with a low surrogate, the two 3-byte
halves are replaced by the single 4-byte sequence `decode_surrogate_pair`,
which is exactly the UTF-8 encoding of the corresponding supplementary
scalar; otherwise `B`'s edge surrogates are appended in canonical 3-byte
form (`LowSurrogate.decode` / `HighSurrogate.decode`, always `0xED`-led
3-byte sequences, never split form); in particular pushing high surrogate
U+D83D then low surrogate U+DCA9 yields the bytes `F0 9F 92 A9`. -/
theorem c1_push_wtf8_merge_law (A B : List Nat) :
    (∀ h A2 l mid high, split_off_last_high_surrogate A = some (h, A2) →
        canonicalize B = (some l, mid, high) →
        push_wtf8 A B = A2 ++ decode_surrogate_pair h l ++ mid ++
          (match high with | some hh => HighSurrogate.decode hh | none => []))
  ∧ (∀ l mid high, split_off_last_high_surrogate A = none →
        canonicalize B = (some l, mid, high) →
        push_wtf8 A B = A ++ LowSurrogate.decode l ++ mid ++
          (match high with | some hh => HighSurrogate.decode hh | none => []))
  ∧ (∀ mid high, canonicalize B = (none, mid, high) →
        push_wtf8 A B = A ++ mid ++
          (match high with | some hh => HighSurrogate.decode hh | none => []))
  ∧ (∀ s, (LowSurrogate.decode s).length = 3 ∧ (LowSurrogate.decode s).getD 0 0 = 0xed ∧
        (HighSurrogate.decode s).length = 3 ∧ (HighSurrogate.decode s).getD 0 0 = 0xed)
  ∧ (∀ hcp lcp, 0xd800 ≤ hcp → hcp < 0xdc00 → 0xdc00 ≤ lcp → lcp < 0xe000 →
        decode_surrogate_pair (surrogateInternal hcp) (surrogateInternal lcp) =
          encodeUtf8 (0x10000 + (hcp - 0xd800) * 1024 + (lcp - 0xdc00)))
  ∧ push_wtf8 (push_wtf8 [] [0xed, 0xa0, 0xbd]) [0xed, 0xb2, 0xa9] =
      [0xf0, 0x9f, 0x92, 0xa9] := by
  refine ⟨?_, ?_, ?_, ?_, ?_, by decide⟩
  · intro h A2 l mid high hsplit hcanon
    simp only [push_wtf8, hcanon, push_low_surrogate, hsplit]
    cases high <;> simp [List.append_assoc]
  · intro l mid high hsplit hcanon
    simp only [push_wtf8, hcanon, push_low_surrogate, hsplit]
    cases high <;> simp [List.append_assoc]
  · intro mid high hcanon
    simp only [push_wtf8, hcanon]
    cases high <;> simp [List.append_assoc]
  · intro s
    exact ⟨rfl, rfl, rfl, rfl⟩
  · intro hcp lcp h1 h2 h3 h4
    exact dsp_correct hcp lcp h1 h2 h3 h4

/-- C1 witness: the merge clause applied at `A = ED A0 BD` (U+D83D),
`B = ED B2 A9` (U+DCA9). -/
theorem c1_push_wtf8_merge_law_witness :
    push_wtf8 [0xed, 0xa0, 0xbd] [0xed, 0xb2, 0xa9] =
      [] ++ decode_surrogate_pair 0xa0bd 0xb2a9 ++ [] ++ [] :=
  (c1_push_wtf8_merge_law [0xed, 0xa0, 0xbd] [0xed, 0xb2, 0xa9]).1 0xa0bd [] 0xb2a9
    [] none (by decide) (by decide)

/-- C9: equality of WTF-8 views holds exactly when their `canonicalize`
triples agree component-wise (leading low surrogate, middle bytes, trailing
high surrogate); consequently any two views with equal post-canonicalization
content — however built, canonical or split edge forms — compare equal and
feed identical chunk sequences to the hasher (`hashChunks`), hence hash
equal; witnessed concretely by the split-edge and canonical-edge spellings
of the same content from the source's `omgwtf8_eq_hash` test. -/
theorem c9_eq_hash_canonicalize (a b : List Nat) :
    (wtf8Eq a b ↔
      (canonicalize a).1 = (canonicalize b).1 ∧
      (canonicalize a).2.1 = (canonicalize b).2.1 ∧
      (canonicalize a).2.2 = (canonicalize b).2.2)
  ∧ (canonicalize a = canonicalize b → wtf8Eq a b ∧ hashChunks a = hashChunks b)
  ∧ (wtf8Eq [0x90, 0x8b, 0xae, 0x7e, 0xf0, 0x90, 0x80]
        [0xed, 0xbb, 0xae, 0x7e, 0xed, 0xa0, 0x80] ∧
      hashChunks [0x90, 0x8b, 0xae, 0x7e, 0xf0, 0x90, 0x80] =
        hashChunks [0xed, 0xbb, 0xae, 0x7e, 0xed, 0xa0, 0x80]) := by
  refine ⟨?_, fun h => ⟨h, by unfold hashChunks; rw [h]⟩, by decide, by decide⟩
  unfold wtf8Eq
  constructor
  · intro h
    rw [h]
    exact ⟨rfl, rfl, rfl⟩
  · intro ⟨h1, h2, h3⟩
    have h23 : (canonicalize a).2 = (canonicalize b).2 := Prod.ext h2 h3
    exact Prod.ext h1 h23

/-- C9 witness: views with equal canonicalization compare equal and hash
equal. -/
theorem c9_eq_hash_canonicalize_witness :
    wtf8Eq [0xed, 0xb0, 0x80] [0xed, 0xb0, 0x80] ∧
      hashChunks [0xed, 0xb0, 0x80] = hashChunks [0xed, 0xb0, 0x80] :=
  (c9_eq_hash_canonicalize [0xed, 0xb0, 0x80] [0xed, 0xb0, 0x80]).2.1 rfl



/-- Unfolding equation for `next_surrogate` (the source loop, one step). -/
theorem next_surrogate_eq (l : List Nat) (pos : Nat) :
    next_surrogate l pos =
      match l[pos]? with
      | none => none
      | some b =>
        if b ≤ 0x7f then next_surrogate l (pos + 1)
        else if b ≤ 0xbf then some (pos, ThreeByteSeq.as_code_unit (window3 l pos))
        else if b ≤ 0xdf then next_surrogate l (pos + 2)
        else if b ≤ 0xef then
          if b = 0xed ∧ 0xa0 ≤ l.getD (pos + 1) 0 then
            some (pos, ThreeByteSeq.as_code_unit (window3 l pos))
          else next_surrogate l (pos + 3)
        else
          if l.length = pos + 3 then some (pos, ThreeByteSeq.as_code_unit (window3 l pos))
          else next_surrogate l (pos + 4) := by
  rw [next_surrogate]
  cases hx : l[pos]? <;> rfl

theorem getD_append_right (a b : List Nat) (k d : Nat) :
    (a ++ b).getD (a.length + k) d = b.getD k d := by
  rw [List.getD_eq_getElem?_getD, List.getD_eq_getElem?_getD,
    List.getElem?_append_right (by omega), show a.length + k - a.length = k by omega]

theorem window3_append (a b : List Nat) (k : Nat) :
    window3 (a ++ b) (a.length + k) = window3 b k := by
  unfold window3
  rw [show a.length + k + 1 = a.length + (k + 1) from by omega,
    show a.length + k + 2 = a.length + (k + 2) from by omega,
    getD_append_right, getD_append_right, getD_append_right]

theorem next_surrogate_none (l : List Nat) (pos : Nat) (h : l[pos]? = none) :
    next_surrogate l pos = none := by
  rw [next_surrogate_eq, h]

theorem next_surrogate_some (l : List Nat) (pos b : Nat) (h : l[pos]? = some b) :
    next_surrogate l pos =
      if b ≤ 0x7f then next_surrogate l (pos + 1)
      else if b ≤ 0xbf then some (pos, ThreeByteSeq.as_code_unit (window3 l pos))
      else if b ≤ 0xdf then next_surrogate l (pos + 2)
      else if b ≤ 0xef then
        if b = 0xed ∧ 0xa0 ≤ l.getD (pos + 1) 0 then
          some (pos, ThreeByteSeq.as_code_unit (window3 l pos))
        else next_surrogate l (pos + 3)
      else
        if l.length = pos + 3 then some (pos, ThreeByteSeq.as_code_unit (window3 l pos))
        else next_surrogate l (pos + 4) := by
  rw [next_surrogate_eq, h]

theorem next_surrogate_append_fuel (a b : List Nat) :
    ∀ n k, b.length - k ≤ n →
      next_surrogate (a ++ b) (a.length + k) =
        (next_surrogate b k).map fun pu => (a.length + pu.1, pu.2) := by
  intro n
  induction n with
  | zero =>
    intro k hk
    have hbk : b.length ≤ k := by omega
    have h1 : (a ++ b)[a.length + k]? = none := by
      rw [List.getElem?_append_right (by omega)]
      apply List.getElem?_eq_none
      omega
    rw [next_surrogate_none _ _ h1, next_surrogate_none b k (List.getElem?_eq_none hbk)]
    rfl
  | succ n ih =>
    intro k hk
    cases hb : b[k]? with
    | none =>
      have hbk : b.length ≤ k := List.getElem?_eq_none_iff.mp hb
      have h1 : (a ++ b)[a.length + k]? = none := by
        rw [List.getElem?_append_right (by omega)]
        apply List.getElem?_eq_none
        omega
      rw [next_surrogate_none _ _ h1, next_surrogate_none b k hb]
      rfl
    | some byte =>
      have ha : (a ++ b)[a.length + k]? = some byte := by
        rw [List.getElem?_append_right (by omega),
          show a.length + k - a.length = k by omega]
        exact hb
      have hkb : k < b.length := by
        by_contra hc
        rw [List.getElem?_eq_none (by omega)] at hb
        exact Option.noConfusion hb
      rw [next_surrogate_some _ _ _ ha, next_surrogate_some _ _ _ hb]
      have hw := window3_append a b k
      have hg : (a ++ b).getD (a.length + k + 1) 0 = b.getD (k + 1) 0 := by
        rw [show a.length + k + 1 = a.length + (k + 1) from by omega, getD_append_right]
      have hlen : (a ++ b).length = a.length + b.length := List.length_append a b
      by_cases c1 : byte ≤ 0x7f
      · rw [if_pos c1, if_pos c1, show a.length + k + 1 = a.length + (k + 1) by omega]
        exact ih (k + 1) (by omega)
      · rw [if_neg c1, if_neg c1]
        by_cases c2 : byte ≤ 0xbf
        · rw [if_pos c2, if_pos c2, hw]
          rfl
        · rw [if_neg c2, if_neg c2]
          by_cases c3 : byte ≤ 0xdf
          · rw [if_pos c3, if_pos c3, show a.length + k + 2 = a.length + (k + 2) by omega]
            exact ih (k + 2) (by omega)
          · rw [if_neg c3, if_neg c3]
            by_cases c4 : byte ≤ 0xef
            · rw [if_pos c4, if_pos c4, hg]
              by_cases c5 : byte = 0xed ∧ 0xa0 ≤ b.getD (k + 1) 0
              · rw [if_pos c5, if_pos c5, hw]
                rfl
              · rw [if_neg c5, if_neg c5,
                  show a.length + k + 3 = a.length + (k + 3) by omega]
                exact ih (k + 3) (by omega)
            · rw [if_neg c4, if_neg c4, hlen]
              by_cases c6 : b.length = k + 3
              · rw [if_pos (show a.length + b.length = a.length + k + 3 by omega),
                  if_pos c6, hw]
                rfl
              · rw [if_neg (show ¬(a.length + b.length = a.length + k + 3) by omega),
                  if_neg c6, show a.length + k + 4 = a.length + (k + 4) by omega]
                exact ih (k + 4) (by omega)

theorem next_surrogate_append (a b : List Nat) (k : Nat) :
    next_surrogate (a ++ b) (a.length + k) =
      (next_surrogate b k).map fun pu => (a.length + pu.1, pu.2) :=
  next_surrogate_append_fuel a b (b.length - k) k (le_refl _)


theorem next_surrogate_token_not_surrogate (c : Nat) (hc : c < 0x110000)
    (hns : ¬(0xd800 ≤ c ∧ c < 0xe000)) (R : List Nat) :
    next_surrogate (encodeUtf8 c ++ R) 0 =
      (next_surrogate R 0).map fun pu => ((encodeUtf8 c).length + pu.1, pu.2) := by
  by_cases r1 : c < 0x80
  · have henc : encodeUtf8 c = [c] := by rw [encodeUtf8, if_pos r1]
    rw [henc]
    rw [next_surrogate_some _ _ c (by simp), if_pos (by omega : c ≤ 0x7f)]
    rw [show (0 : Nat) + 1 = List.length [c] + 0 from rfl]
    exact next_surrogate_append [c] R 0
  · by_cases r2 : c < 0x800
    · have henc : encodeUtf8 c = [0xc0 + c / 64, 0x80 + c % 64] := by
        rw [encodeUtf8, if_neg (by omega), if_pos r2]
      rw [henc]
      rw [next_surrogate_some _ _ (0xc0 + c / 64) (by simp),
        if_neg (by omega), if_neg (by omega), if_pos (by omega : 0xc0 + c / 64 ≤ 0xdf)]
      rw [show (0 : Nat) + 2 = List.length [0xc0 + c / 64, 0x80 + c % 64] + 0 from rfl]
      exact next_surrogate_append _ R 0
    · by_cases r3 : c < 0x10000
      · have henc : encodeUtf8 c = [0xe0 + c / 4096, 0x80 + c / 64 % 64, 0x80 + c % 64] := by
          rw [encodeUtf8, if_neg (by omega), if_neg (by omega), if_pos r3]
        rw [henc]
        rw [next_surrogate_some _ _ (0xe0 + c / 4096) (by simp),
          if_neg (by omega), if_neg (by omega), if_neg (by omega),
          if_pos (by omega : 0xe0 + c / 4096 ≤ 0xef)]
        have hgd : ([0xe0 + c / 4096, 0x80 + c / 64 % 64, 0x80 + c % 64] ++ R).getD (0 + 1) 0 =
            0x80 + c / 64 % 64 := rfl
        rw [hgd, if_neg (by omega : ¬(0xe0 + c / 4096 = 0xed ∧ 0xa0 ≤ 0x80 + c / 64 % 64))]
        rw [show (0 : Nat) + 3 =
          List.length [0xe0 + c / 4096, 0x80 + c / 64 % 64, 0x80 + c % 64] + 0 from rfl]
        exact next_surrogate_append _ R 0
      · have henc : encodeUtf8 c =
            [0xf0 + c / 262144, 0x80 + c / 4096 % 64, 0x80 + c / 64 % 64, 0x80 + c % 64] := by
          rw [encodeUtf8, if_neg (by omega), if_neg (by omega), if_neg (by omega)]
        rw [henc]
        rw [next_surrogate_some _ _ (0xf0 + c / 262144) (by simp),
          if_neg (by omega), if_neg (by omega), if_neg (by omega), if_neg (by omega)]
        rw [if_neg (by simp)]
        rw [show (0 : Nat) + 4 = List.length
          [0xf0 + c / 262144, 0x80 + c / 4096 % 64, 0x80 + c / 64 % 64, 0x80 + c % 64] + 0
          from rfl]
        exact next_surrogate_append _ R 0

theorem next_surrogate_token_surrogate (c : Nat) (h1 : 0xd800 ≤ c) (h2 : c < 0xe000)
    (R : List Nat) :
    next_surrogate (encodeUtf8 c ++ R) 0 =
      some (0, ThreeByteSeq.as_code_unit (window3 (encodeUtf8 c ++ R) 0)) := by
  have henc : encodeUtf8 c = [0xe0 + c / 4096, 0x80 + c / 64 % 64, 0x80 + c % 64] := by
    rw [encodeUtf8, if_neg (by omega), if_neg (by omega), if_pos (by omega)]
  rw [henc]
  rw [next_surrogate_some _ _ (0xe0 + c / 4096) (by simp),
    if_neg (by omega), if_neg (by omega), if_neg (by omega),
    if_pos (by omega : 0xe0 + c / 4096 ≤ 0xef)]
  have hgd : ([0xe0 + c / 4096, 0x80 + c / 64 % 64, 0x80 + c % 64] ++ R).getD (0 + 1) 0 =
      0x80 + c / 64 % 64 := rfl
  rw [hgd, if_pos (by omega : 0xe0 + c / 4096 = 0xed ∧ 0xa0 ≤ 0x80 + c / 64 % 64)]

theorem next_surrogate_flatMap_none (cps : List Nat) (h : ∀ c ∈ cps, c < 0x110000) :
    next_surrogate (cps.flatMap encodeUtf8) 0 = none ↔
      ∀ c ∈ cps, ¬(0xd800 ≤ c ∧ c < 0xe000) := by
  induction cps with
  | nil => simpa using next_surrogate_none [] 0 rfl
  | cons c cps ih =>
    rw [List.flatMap_cons]
    by_cases hs : 0xd800 ≤ c ∧ c < 0xe000
    · rw [next_surrogate_token_surrogate c hs.1 hs.2]
      simp only [List.mem_cons]
      constructor
      · intro hcon; exact absurd hcon (by simp)
      · intro hall
        exact absurd hs (hall c (Or.inl rfl))
    · rw [next_surrogate_token_not_surrogate c (h c (List.mem_cons_self c cps)) hs]
      rw [Option.map_eq_none']
      rw [ih (fun d hd => h d (List.mem_cons_of_mem c hd))]
      simp only [List.mem_cons]
      constructor
      · intro hall d hd
        rcases hd with rfl | hd
        · exact hs
        · exact hall d hd
      · intro hall d hd
        exact hall d (Or.inr hd)

/-- C8: for a buffer holding the WTF-8 encoding of the code points `cps`,
`into_string` returns `Ok` with exactly the buffer's bytes when no surrogate
is present, and `Err` when at least one surrogate is present; in both cases
the payload is the original byte sequence itself (in the `Err` case the
original buffer is returned unchanged, ownership preserved). -/
theorem c8_into_string (l : List Nat) (cps : List Nat)
    (hl : l = cps.flatMap encodeUtf8) (hcps : ∀ c ∈ cps, c < 0x110000) :
    (into_string l = Except.ok l ∨ into_string l = Except.error l)
  ∧ (into_string l = Except.ok l ↔ ∀ c ∈ cps, ¬(0xd800 ≤ c ∧ c < 0xe000))
  ∧ (into_string l = Except.error l ↔ ∃ c ∈ cps, 0xd800 ≤ c ∧ c < 0xe000) := by
  subst hl
  have hiff := next_surrogate_flatMap_none cps hcps
  unfold into_string
  cases hns : next_surrogate (cps.flatMap encodeUtf8) 0 with
  | none =>
    have hall := hiff.mp hns
    refine ⟨Or.inl rfl, ⟨fun _ => hall, fun _ => rfl⟩, ?_, ?_⟩
    · intro hcon
      exact absurd hcon (by simp)
    · rintro ⟨d, hd, hsd⟩
      exact absurd hsd (hall d hd)
  | some pu =>
    have hns2 : ¬(∀ c ∈ cps, ¬(0xd800 ≤ c ∧ c < 0xe000)) := by
      intro hall
      rw [hiff.mpr hall] at hns
      exact Option.noConfusion hns
    refine ⟨Or.inr rfl, ⟨?_, ?_⟩, ⟨?_, ?_⟩⟩
    · intro hcon
      exact absurd hcon (by simp)
    · intro hall
      exact absurd hall hns2
    · intro _
      by_contra hno
      push_neg at hno
      exact hns2 fun d hd hsd => by have := hno d hd hsd.1; omega
    · intro _
      rfl


/-- C8 witness: a buffer containing the lone surrogate U+D800 is returned
unchanged as `Err`. -/
theorem c8_into_string_witness :
    into_string [0x61, 0xed, 0xa0, 0x80] = Except.error [0x61, 0xed, 0xa0, 0x80] :=
  (c8_into_string [0x61, 0xed, 0xa0, 0x80] [0x61, 0xd800] (by decide)
    (by decide)).2.2.mpr ⟨0xd800, by decide, by decide⟩



/-- Unfolding equations for `encode_wide` and `from_wide`, and the
decode-one-code-point correctness of the modelled `nextCodePoint` on
encoded output. -/
theorem encode_wide_nil : encode_wide [] = some [] := by
  rw [encode_wide]

theorem encode_wide_cons (b : Nat) (rest : List Nat) :
    encode_wide (b :: rest) =
      if 0x80 ≤ b ∧ b ≤ 0xbf then
        match rest with
        | b1 :: b2 :: rest2 =>
          (encode_wide rest2).map fun r =>
            ThreeByteSeq.as_code_unit (ThreeByteSeq.new b b1 b2) :: r
        | _ => none
      else if 0xf0 ≤ b ∧ rest.length = 2 then
        match rest with
        | b1 :: b2 :: rest2 =>
          (encode_wide rest2).map fun r =>
            ThreeByteSeq.as_code_unit (ThreeByteSeq.new b b1 b2) :: r
        | _ => none
      else
        match nextCodePoint (b :: rest) with
        | some (cp, k) =>
          (encode_wide (rest.drop (k - 1))).map fun r => encodeUtf16 cp ++ r
        | none => some [] := by
  rw [encode_wide.eq_def]

theorem ncp_enc (c : Nat) (hc : c < 0x110000) (t : List Nat) :
    nextCodePoint (encodeUtf8 c ++ t) = some (c, (encodeUtf8 c).length) := by
  by_cases r1 : c < 0x80
  · rw [encodeUtf8, if_pos r1]
    simp only [List.cons_append, List.nil_append, nextCodePoint, if_pos r1]
    rfl
  · by_cases r2 : c < 0x800
    · rw [encodeUtf8, if_neg (by omega), if_pos r2]
      simp only [List.cons_append, List.nil_append, nextCodePoint]
      rw [if_neg (by omega), if_pos (by omega : 0xc0 + c / 64 < 0xe0)]
      simp only [List.getD_cons_zero]
      congr 2
      omega
    · by_cases r3 : c < 0x10000
      · rw [encodeUtf8, if_neg (by omega), if_neg (by omega), if_pos r3]
        simp only [List.cons_append, List.nil_append, nextCodePoint]
        rw [if_neg (by omega), if_neg (by omega : ¬(0xe0 + c / 4096 < 0xe0)),
          if_pos (by omega : 0xe0 + c / 4096 < 0xf0)]
        simp only [List.getD_cons_zero, List.getD_cons_succ]
        congr 2
        omega
      · rw [encodeUtf8, if_neg (by omega), if_neg (by omega), if_neg (by omega)]
        simp only [List.cons_append, List.nil_append, nextCodePoint]
        rw [if_neg (by omega), if_neg (by omega : ¬(0xf0 + c / 262144 < 0xe0)),
          if_neg (by omega : ¬(0xf0 + c / 262144 < 0xf0))]
        simp only [List.getD_cons_zero, List.getD_cons_succ]
        congr 2
        omega

theorem ew_token (c : Nat) (hc : c < 0x110000) (t : List Nat) :
    encode_wide (encodeUtf8 c ++ t) =
      (encode_wide t).map fun r => encodeUtf16 c ++ r := by
  have hncp := ncp_enc c hc t
  by_cases r1 : c < 0x80
  · have henc : encodeUtf8 c = [c] := by rw [encodeUtf8, if_pos r1]
    rw [henc] at hncp ⊢
    simp only [List.cons_append, List.nil_append, List.length_cons,
      List.length_nil] at hncp ⊢
    rw [encode_wide_cons, if_neg (by omega), if_neg (by push_neg; intro h; omega), hncp]
    simp
  · by_cases r2 : c < 0x800
    · have henc : encodeUtf8 c = [0xc0 + c / 64, 0x80 + c % 64] := by
        rw [encodeUtf8, if_neg (by omega), if_pos r2]
      rw [henc] at hncp ⊢
      simp only [List.cons_append, List.nil_append, List.length_cons,
        List.length_nil] at hncp ⊢
      rw [encode_wide_cons, if_neg (by omega), if_neg (by push_neg; intro h; omega), hncp]
      simp
    · by_cases r3 : c < 0x10000
      · have henc : encodeUtf8 c = [0xe0 + c / 4096, 0x80 + c / 64 % 64, 0x80 + c % 64] := by
          rw [encodeUtf8, if_neg (by omega), if_neg (by omega), if_pos r3]
        rw [henc] at hncp ⊢
        simp only [List.cons_append, List.nil_append, List.length_cons,
          List.length_nil] at hncp ⊢
        rw [encode_wide_cons, if_neg (by omega), if_neg (by push_neg; intro h; omega), hncp]
        simp
      · have henc : encodeUtf8 c =
            [0xf0 + c / 262144, 0x80 + c / 4096 % 64, 0x80 + c / 64 % 64, 0x80 + c % 64] := by
          rw [encodeUtf8, if_neg (by omega), if_neg (by omega), if_neg (by omega)]
        rw [henc] at hncp ⊢
        simp only [List.cons_append, List.nil_append, List.length_cons,
          List.length_nil] at hncp ⊢
        rw [encode_wide_cons, if_neg (by omega),
          if_neg (by push_neg; intro h; simp), hncp]
        simp

theorem from_wide_nil : from_wide [] = [] := rfl

theorem from_wide_single (u : Nat) : from_wide [u] = encodeUtf8 u := by
  show (if isHigh u then encodeUtf8 u else encodeUtf8 u ++ from_wide []) = encodeUtf8 u
  by_cases h : isHigh u
  · rw [if_pos h]
  · rw [if_neg h]
    show encodeUtf8 u ++ [] = encodeUtf8 u
    rw [List.append_nil]

theorem from_wide_two (u l : Nat) (rest2 : List Nat) :
    from_wide (u :: l :: rest2) =
      if isHigh u then
        if isLow l then
          encodeUtf8 (0x10000 + (u - 0xd800) * 1024 + (l - 0xdc00)) ++ from_wide rest2
        else encodeUtf8 u ++ from_wide (l :: rest2)
      else encodeUtf8 u ++ from_wide (l :: rest2) := rfl

/-- C2: for every sequence `v` of 16-bit code units — unpaired surrogates
included — collecting the code units of `encode_wide` on the buffer built by
`from_wide v` yields exactly `v`. -/
theorem c2_from_wide_encode_wide (v : List Nat) (hv : ∀ u ∈ v, u < 0x10000) :
    encode_wide (from_wide v) = some v := by
  have H : ∀ n w, List.length w ≤ n → (∀ u ∈ w, u < 0x10000) →
      encode_wide (from_wide w) = some w := by
    intro n
    induction n with
    | zero =>
      intro w hw _
      have : w = [] := by
        cases w with
        | nil => rfl
        | cons a b => simp at hw
      subst this
      rw [from_wide_nil, encode_wide_nil]
    | succ n ih =>
      intro w hw hu
      cases w with
      | nil => rw [from_wide_nil, encode_wide_nil]
      | cons u rest =>
        have hu0 : u < 0x10000 := hu u (List.mem_cons_self u rest)
        have h16u : encodeUtf16 u = [u] := by rw [encodeUtf16, if_pos hu0]
        cases rest with
        | nil =>
          rw [from_wide_single, ← List.append_nil (encodeUtf8 u),
            ew_token u (by omega) [], encode_wide_nil]
          simp [h16u]
        | cons l rest2 =>
          have hl0 : l < 0x10000 := hu l (by simp)
          by_cases hhi : isHigh u
          · by_cases hlo : isLow l
            · rw [from_wide_two, if_pos hhi, if_pos hlo]
              have hhi2 := hhi
              have hlo2 := hlo
              unfold isHigh at hhi2
              unfold isLow at hlo2
              set c := 0x10000 + (u - 0xd800) * 1024 + (l - 0xdc00) with hcdef
              have hc : c < 0x110000 := by omega
              rw [ew_token c hc (from_wide rest2),
                ih rest2 (by simp at hw; omega) (fun d hd => hu d (by simp [hd]))]
              have h16 : encodeUtf16 c = [u, l] := by
                rw [encodeUtf16, if_neg (by omega)]
                have e1 : 0xd800 + (c - 0x10000) / 1024 = u := by omega
                have e2 : 0xdc00 + (c - 0x10000) % 1024 = l := by omega
                rw [e1, e2]
              simp [h16]
            · rw [from_wide_two, if_pos hhi, if_neg hlo]
              rw [ew_token u (by omega) _,
                ih (l :: rest2) (by simp at hw ⊢; omega)
                  (fun d hd => hu d (by simp at hd ⊢; tauto))]
              simp [h16u]
          · rw [from_wide_two, if_neg hhi]
            rw [ew_token u (by omega) _,
              ih (l :: rest2) (by simp at hw ⊢; omega)
                (fun d hd => hu d (by simp at hd ⊢; tauto))]
            simp [h16u]
  exact H v.length v (le_refl _) hv


/-- C2 witness: the round trip on the source test vector
`[0x61, 0xE9, 0x20, 0xD83D, 0xD83D, 0xDCA9]` (an unpaired high surrogate
followed by a paired one). -/
theorem c2_from_wide_encode_wide_witness :
    encode_wide (from_wide [0x61, 0xe9, 0x20, 0xd83d, 0xd83d, 0xdca9]) =
      some [0x61, 0xe9, 0x20, 0xd83d, 0xd83d, 0xdca9] :=
  c2_from_wide_encode_wide [0x61, 0xe9, 0x20, 0xd83d, 0xd83d, 0xdca9] (by decide)



/-- Auxiliary list lemmas for the truncate analysis. -/
theorem getD_take (l : List Nat) (m i d : Nat) (h : i < m) :
    (l.take m).getD i d = l.getD i d := by
  rw [List.getD_eq_getElem?_getD, List.getD_eq_getElem?_getD, List.getElem?_take, if_pos h]

theorem set_last_three (t : List Nat) (m a b c : Nat) (hm : t.length = m + 3) :
    ((t.set m a).set (m + 1) b).set (m + 2) c = t.take m ++ [a, b, c] := by
  apply List.ext_getElem
  · simp [hm]
  · intro i h1 h2
    simp only [List.length_set] at h1
    rw [List.getElem_set, List.getElem_set, List.getElem_set]
    rw [List.getElem_append]
    by_cases hi : i < m
    · rw [if_neg (by omega), if_neg (by omega), if_neg (by omega), dif_pos (by simp [hm]; omega)]
      rw [List.getElem_take]
    · have him : i = m ∨ i = m + 1 ∨ i = m + 2 := by omega
      have hlt : (t.take m).length = m := by simp [hm]
      rcases him with rfl | rfl | rfl
      · rw [if_neg (by omega), if_neg (by omega), if_pos rfl, dif_neg (by omega)]
        simp [hlt]
      · rw [if_neg (by omega), if_pos rfl, dif_neg (by omega)]
        simp [hlt]
      · rw [if_pos rfl, dif_neg (by omega)]
        simp [hlt]

theorem classify_fbs2_facts (l : List Nat) (n : Nat)
    (hc : classify_index l n = IndexType.FourByteSeq2) :
    2 ≤ n ∧ n + 2 ≤ l.length ∧ 0xf0 ≤ l.getD (n - 2) 0 := by
  by_cases h0 : n = 0 ∨ n = l.length
  · have : classify_index l n = IndexType.CharBoundary := by simp [classify_index, h0]
    rw [hc] at this
    exact absurd this (by decide)
  cases hb : l[n]? with
  | none =>
    have : classify_index l n = IndexType.OutOfBounds := by
      simp [classify_index, h0, hb]
    rw [hc] at this
    exact absurd this (by decide)
  | some b =>
    by_cases hcont : 0x80 ≤ b ∧ b ≤ 0xbf
    · cases hf : (List.range' ((n + 3) - l.length) ((min n 3) - ((n + 3) - l.length))).find?
          (fun off => 0xf0 ≤ l.getD (n - (off + 1)) 0) with
      | none =>
        have : classify_index l n = IndexType.Interior := by
          simp only [classify_index]
          rw [if_neg h0]
          simp only [hb]
          rw [if_pos hcont]
          simp only [hf]
        rw [hc] at this
        exact absurd this (by decide)
      | some off =>
        have hval : classify_index l n = IndexType.ofOffset (off + 1) := by
          simp only [classify_index]
          rw [if_neg h0]
          simp only [hb]
          rw [if_pos hcont]
          simp only [hf]
        rw [hc] at hval
        have hoff : off = 1 := by
          unfold IndexType.ofOffset at hval
          by_cases h1 : off + 1 = 1
          · rw [if_pos h1] at hval; exact absurd hval (by decide)
          · rw [if_neg h1] at hval
            by_cases h2 : off + 1 = 2
            · omega
            · rw [if_neg h2] at hval; exact absurd hval (by decide)
        subst hoff
        have hmem := List.mem_of_find?_eq_some hf
        rw [List.mem_range'_1] at hmem
        have hp := List.find?_some hf
        simp only [decide_eq_true_eq] at hp
        refine ⟨by omega, by omega, hp⟩
    · have : classify_index l n = IndexType.CharBoundary := by
        simp only [classify_index]
        rw [if_neg h0]
        simp only [hb]
        rw [if_neg hcont]
      rw [hc] at this
      exact absurd this (by decide)

theorem classify_cb_le (l : List Nat) (n : Nat)
    (hc : classify_index l n = IndexType.CharBoundary) : n ≤ l.length := by
  by_contra h
  have hoob : classify_index l n = IndexType.OutOfBounds := by
    simp only [classify_index]
    rw [if_neg (by omega), List.getElem?_eq_none (by omega)]
  rw [hc] at hoob
  exact absurd hoob (by decide)

/-- C7: `truncate l n` shortens to exactly `n` bytes when `n` classifies as
`CharBoundary`; when `n` classifies as `FourByteSeq2` (and the buffer does
not begin with a split fragment, which a canonical `Wtf8Buf` never does) it
keeps `n + 1` bytes and canonicalizes in place, folding the dangling split
high half into its canonical 3-byte `0xED`-led form; for every other
classification — including `n` greater than the length — the call panics
(`none`) and does nothing else. -/
theorem c7_truncate (l : List Nat) (n : Nat) :
    (classify_index l n = IndexType.CharBoundary →
      truncate l n = some (l.take n) ∧ (l.take n).length = n)
  ∧ (classify_index l n = IndexType.FourByteSeq2 →
      ¬(0x80 ≤ l.getD 0 0 ∧ l.getD 0 0 ≤ 0xbf) →
      truncate l n = some (l.take (n - 2) ++
        HighSurrogate.decode (ThreeByteSeq.to_high_surrogate_from_split_repr_unchecked
          (window3 l (n - 2)))))
  ∧ (classify_index l n ≠ IndexType.CharBoundary →
      classify_index l n ≠ IndexType.FourByteSeq2 →
      truncate l n = none)
  ∧ (l.length < n → truncate l n = none) := by
  refine ⟨?_, ?_, ?_, ?_⟩
  · intro hc
    constructor
    · unfold truncate
      rw [hc]
    · have := classify_cb_le l n hc
      simp [List.length_take]
      omega
  · intro hc hfront
    obtain ⟨hn2, hnl, hf0⟩ := classify_fbs2_facts l n hc
    have ht : truncate l n = some (canonicalize_in_place (l.take (n + 1))) := by
      unfold truncate
      rw [hc]
    rw [ht]
    congr 1
    have hlt : (l.take (n + 1)).length = n + 1 := by simp; omega
    have hg0 : (l.take (n + 1)).getD 0 0 = l.getD 0 0 := getD_take l (n + 1) 0 0 (by omega)
    simp only [canonicalize_in_place]
    rw [if_neg (show ¬((l.take (n + 1)).length < 3) from by rw [hlt]; omega)]
    rw [hg0, if_neg hfront]
    rw [hlt]
    rw [show n + 1 - 3 = n - 2 by omega, show n + 1 - 2 = n - 2 + 1 by omega,
      show n + 1 - 1 = n - 2 + 2 by omega]
    rw [getD_take l (n + 1) (n - 2) 0 (by omega)]
    rw [if_pos hf0]
    rw [show window3 (l.take (n + 1)) (n - 2) = window3 l (n - 2) from by
      unfold window3
      rw [getD_take l (n + 1) (n - 2) 0 (by omega),
        getD_take l (n + 1) (n - 2 + 1) 0 (by omega),
        getD_take l (n + 1) (n - 2 + 2) 0 (by omega)]]
    rw [set_last_three _ _ _ _ _ (show (l.take (n + 1)).length = (n - 2) + 3 from by
      rw [hlt]; omega)]
    rw [List.take_take, show min (n - 2) (n + 1) = n - 2 by omega]
    rfl
  · intro h1 h2
    unfold truncate
    cases hcv : classify_index l n with
    | CharBoundary => exact absurd hcv h1
    | FourByteSeq2 => exact absurd hcv h2
    | FourByteSeq1 => rfl
    | FourByteSeq3 => rfl
    | Interior => rfl
    | OutOfBounds => rfl
  · intro h
    have hc : classify_index l n = IndexType.OutOfBounds := by
      unfold classify_index
      rw [if_neg (by omega), List.getElem?_eq_none (by omega)]
    unfold truncate
    rw [hc]


/-- C7 witness: truncating the 4-byte buffer of U+10000 at its midpoint
folds the dangling half to the canonical high surrogate `ED A0 80`. -/
theorem c7_truncate_witness :
    truncate [0xf0, 0x90, 0x80, 0x80] 2 = some [0xed, 0xa0, 0x80] := by
  have h := (c7_truncate [0xf0, 0x90, 0x80, 0x80] 2).2.1 (by decide) (by decide)
  rw [h]
  decide

end Wtf8

namespace Wtf8

/-- The WTF-8 byte encoding of a list of code points. -/
def encList (cps : List Nat) : List Nat := cps.flatMap encodeUtf8

/-- Well-formed WTF-8 forbids an encoded high surrogate immediately followed
by an encoded low surrogate (they would have to be one supplementary
character instead). -/
def NoPair : List Nat → Prop
  | [] => True
  | [_] => True
  | a :: b :: r => ¬(isHigh a ∧ isLow b) ∧ NoPair (b :: r)

/-- Code points of a well-formed WTF-8 string: any code point up to
U+10FFFF (lone surrogates allowed), no high-then-low adjacency. -/
def WfCps (cps : List Nat) : Prop := (∀ c ∈ cps, c < 0x110000) ∧ NoPair cps

/-- Canonical form: well-formed WTF-8 (a concatenation of canonical code
point encodings — hence no split fragment anywhere, in particular at the
edges). -/
def Canonical (l : List Nat) : Prop := ∃ cps, WfCps cps ∧ l = encList cps

/-- The trailing 3 bytes of a 4-byte sequence (a split low-surrogate
fragment). -/
def SplitLowFragment (c : Nat) : List Nat := (encodeUtf8 c).drop 1

/-- The leading 3 bytes of a 4-byte sequence (a split high-surrogate
fragment). -/
def SplitHighFragment (c : Nat) : List Nat := (encodeUtf8 c).take 3

def optFrag (f : Nat → List Nat) : Option Nat → List Nat
  | some c => f c
  | none => []

/-- A valid OMG-WTF-8 slice: an optional split low fragment, a well-formed
middle, and an optional split high fragment. -/
def ValidOmg (l : List Nat) : Prop :=
  ∃ lo cps hi, (∀ c ∈ lo, 0x10000 ≤ c ∧ c < 0x110000) ∧ WfCps cps ∧
    (∀ c ∈ hi, 0x10000 ≤ c ∧ c < 0x110000) ∧
    l = optFrag SplitLowFragment lo ++ encList cps ++ optFrag SplitHighFragment hi

theorem encList_nil : encList [] = [] := rfl

theorem encList_cons (c : Nat) (cps : List Nat) :
    encList (c :: cps) = encodeUtf8 c ++ encList cps := by
  simp [encList]

theorem encList_append (a b : List Nat) :
    encList (a ++ b) = encList a ++ encList b := by
  simp [encList]

theorem encList_singleton (c : Nat) : encList [c] = encodeUtf8 c := by
  simp [encList]

theorem tbs_val (b0 b1 b2 : Nat) (h1 : b1 < 256) (h2 : b2 < 256) :
    ThreeByteSeq.new b0 b1 b2 = b0 * 65536 + b1 * 256 + b2 := by
  unfold ThreeByteSeq.new
  rw [Nat.shiftLeft_eq, Nat.shiftLeft_eq]
  rw [show b0 * 2 ^ 16 ||| b1 * 2 ^ 8 = b0 * 2 ^ 16 + b1 * 2 ^ 8 from
    @lor_eq_add_of_disjoint _ _ 16 (by omega) (by omega)]
  rw [show b0 * 2 ^ 16 + b1 * 2 ^ 8 ||| b2 = b0 * 2 ^ 16 + b1 * 2 ^ 8 + b2 from
    @lor_eq_add_of_disjoint _ _ 8 (by omega) (by omega)]
  omega

theorem getD_append_left (a b : List Nat) (i d : Nat) (h : i < a.length) :
    (a ++ b).getD i d = a.getD i d := by
  rw [List.getD_eq_getElem?_getD, List.getD_eq_getElem?_getD, List.getElem?_append_left h]

/-- Length of the encoding in each range. -/
theorem enc_length (c : Nat) (hc : c < 0x110000) :
    (c < 0x80 ∧ (encodeUtf8 c).length = 1) ∨
    (0x80 ≤ c ∧ c < 0x800 ∧ (encodeUtf8 c).length = 2) ∨
    (0x800 ≤ c ∧ c < 0x10000 ∧ (encodeUtf8 c).length = 3) ∨
    (0x10000 ≤ c ∧ (encodeUtf8 c).length = 4) := by
  by_cases r1 : c < 0x80
  · left
    rw [encodeUtf8, if_pos r1]
    exact ⟨r1, rfl⟩
  · by_cases r2 : c < 0x800
    · right; left
      rw [encodeUtf8, if_neg r1, if_pos r2]
      exact ⟨by omega, r2, rfl⟩
    · by_cases r3 : c < 0x10000
      · right; right; left
        rw [encodeUtf8, if_neg r1, if_neg r2, if_pos r3]
        exact ⟨by omega, r3, rfl⟩
      · right; right; right
        rw [encodeUtf8, if_neg r1, if_neg r2, if_neg r3]
        exact ⟨by omega, rfl⟩

theorem enc_length_pos (c : Nat) : 0 < (encodeUtf8 c).length := by
  unfold encodeUtf8
  split_ifs <;> simp

theorem enc_bytes_lt (c : Nat) (hc : c < 0x110000) :
    ∀ b ∈ encodeUtf8 c, b < 256 := by
  intro b hb
  unfold encodeUtf8 at hb
  split_ifs at hb <;> simp at hb <;> omega

theorem encList_bytes_lt (cps : List Nat) (h : ∀ c ∈ cps, c < 0x110000) :
    ∀ b ∈ encList cps, b < 256 := by
  intro b hb
  unfold encList at hb
  rw [List.mem_flatMap] at hb
  obtain ⟨c, hc, hbc⟩ := hb
  exact enc_bytes_lt c (h c hc) b hbc

/-- Every byte of an encoding after the first is a continuation byte. -/
theorem enc_tail_cont (c : Nat) (hc : c < 0x110000) (i : Nat) (h1 : 1 ≤ i)
    (h2 : i < (encodeUtf8 c).length) :
    0x80 ≤ (encodeUtf8 c).getD i 0 ∧ (encodeUtf8 c).getD i 0 ≤ 0xbf := by
  unfold encodeUtf8 at h2 ⊢
  split_ifs at h2 ⊢ <;> simp at h2
  · omega
  · interval_cases i <;> simp <;> omega
  · interval_cases i <;> simp <;> omega
  · interval_cases i <;> simp <;> omega

/-- The head byte of an encoding is never a continuation byte, and is at
least `0xf0` exactly for supplementary code points. -/
theorem enc_head (c : Nat) (hc : c < 0x110000) :
    ¬(0x80 ≤ (encodeUtf8 c).getD 0 0 ∧ (encodeUtf8 c).getD 0 0 ≤ 0xbf) ∧
    (0xf0 ≤ (encodeUtf8 c).getD 0 0 ↔ 0x10000 ≤ c) := by
  unfold encodeUtf8
  split_ifs <;> simp <;> omega

theorem np_tail {a : Nat} {r : List Nat} (h : NoPair (a :: r)) : NoPair r := by
  cases r with
  | nil => trivial
  | cons b r2 => exact h.2

theorem np_append_left {a b : List Nat} (h : NoPair (a ++ b)) : NoPair a := by
  induction a with
  | nil => trivial
  | cons x a ih =>
    cases a with
    | nil => trivial
    | cons y a2 =>
      rw [List.cons_append, List.cons_append] at h
      exact ⟨h.1, ih h.2⟩

theorem np_append_right {a b : List Nat} (h : NoPair (a ++ b)) : NoPair b := by
  induction a with
  | nil => exact h
  | cons x a ih =>
    rw [List.cons_append] at h
    apply ih
    cases ha : a ++ b with
    | nil => trivial
    | cons y r => rw [ha] at h; exact h.2

/-- Appending a list whose head is not a low surrogate preserves NoPair. -/
theorem np_append_head_not_low {a b : List Nat} (ha : NoPair a) (hb : NoPair b)
    (hh : ∀ c, b.head? = some c → ¬isLow c) : NoPair (a ++ b) := by
  induction a with
  | nil => exact hb
  | cons x a ih =>
    cases a with
    | nil =>
      cases b with
      | nil => trivial
      | cons y r =>
        refine ⟨?_, ih trivial⟩
        intro ⟨hx, hy⟩
        exact hh y rfl hy
    | cons z a2 =>
      rw [List.cons_append, List.cons_append]
      exact ⟨ha.1, ih ha.2⟩

/-- Appending after a list whose last element is not a high surrogate
preserves NoPair. -/
theorem np_append_last_not_high {a b : List Nat} (ha : NoPair a) (hb : NoPair b)
    (hh : ∀ c, a.getLast? = some c → ¬isHigh c) : NoPair (a ++ b) := by
  induction a with
  | nil => exact hb
  | cons x a ih =>
    cases a with
    | nil =>
      cases b with
      | nil => trivial
      | cons y r =>
        refine ⟨?_, hb⟩
        intro ⟨hx, hy⟩
        exact hh x rfl hx
    | cons z a2 =>
      rw [List.cons_append, List.cons_append]
      refine ⟨ha.1, ?_⟩
      rw [← List.cons_append]
      exact ih ha.2 (fun c hcl => hh c (by rw [List.getLast?_cons_cons]; exact hcl))

theorem np_of_no_surrogate {cps : List Nat}
    (h : ∀ c ∈ cps, ¬(0xd800 ≤ c ∧ c < 0xe000)) : NoPair cps := by
  induction cps with
  | nil => trivial
  | cons x r ih =>
    cases r with
    | nil => trivial
    | cons y r2 =>
      refine ⟨?_, ih (fun c hc => h c (by simp at hc ⊢; tauto))⟩
      intro ⟨hx, _⟩
      exact h x (by simp) (by unfold isHigh at hx; omega)

end Wtf8

namespace Wtf8

theorem lor_lt_two_pow {x y n : Nat} (hx : x < 2 ^ n) (hy : y < 2 ^ n) :
    x ||| y < 2 ^ n := by
  apply Nat.lt_pow_two_of_testBit
  intro i hi
  rw [Nat.testBit_lor]
  rw [Nat.testBit_eq_false_of_lt (lt_of_lt_of_le hx (Nat.pow_le_pow_right (by norm_num) hi)),
    Nat.testBit_eq_false_of_lt (lt_of_lt_of_le hy (Nat.pow_le_pow_right (by norm_num) hi))]
  rfl

theorem lor_add_left (k X Y n : Nat) (hX : X < 2 ^ n) (hY : Y < 2 ^ n) :
    (2 ^ n * k + X) ||| Y = 2 ^ n * k + (X ||| Y) := by
  apply Nat.eq_of_testBit_eq
  intro j
  rw [Nat.testBit_lor, Nat.testBit_mul_pow_two_add _ hX j,
    Nat.testBit_mul_pow_two_add _ (lor_lt_two_pow hX hY) j]
  rcases Nat.lt_or_ge j n with h | h
  · simp [h, Nat.testBit_lor]
  · have hYj : Y.testBit j = false :=
      Nat.testBit_eq_false_of_lt (lt_of_lt_of_le hY (Nat.pow_le_pow_right (by norm_num) h))
    simp [Nat.not_lt.mpr h, hYj]

/-- Decoding the internal representation of a surrogate code point gives
back its canonical 3-byte encoding. -/
theorem decode_surrogateInternal (c : Nat) (h1 : 0xd800 ≤ c) (h2 : c < 0xe000) :
    HighSurrogate.decode (surrogateInternal c) = encodeUtf8 c := by
  unfold HighSurrogate.decode surrogateInternal encodeUtf8
  rw [if_neg (by omega), if_neg (by omega), if_pos (by omega)]
  rw [Nat.shiftRight_eq_div_pow]
  simp only [List.cons.injEq, and_true]
  refine ⟨by omega, by omega, by omega⟩

theorem decode_surrogateInternal_low (c : Nat) (h1 : 0xd800 ≤ c) (h2 : c < 0xe000) :
    LowSurrogate.decode (surrogateInternal c) = encodeUtf8 c :=
  decode_surrogateInternal c h1 h2

/-- Bitwise or distributes over a base-`2 ^ n` digit split. -/
theorem lor_byte_split (a b c d n : Nat) (hb : b < 2 ^ n) (hd : d < 2 ^ n) :
    (a * 2 ^ n + b) ||| (c * 2 ^ n + d) = (a ||| c) * 2 ^ n + (b ||| d) := by
  apply Nat.eq_of_testBit_eq
  intro j
  rw [Nat.mul_comm a, Nat.mul_comm c, Nat.mul_comm (a ||| c)]
  rw [Nat.testBit_lor, Nat.testBit_mul_pow_two_add _ hb j,
    Nat.testBit_mul_pow_two_add _ hd j,
    Nat.testBit_mul_pow_two_add _ (lor_lt_two_pow hb hd) j]
  rcases Nat.lt_or_ge j n with h | h
  · simp [h, Nat.testBit_lor]
  · simp [Nat.not_lt.mpr h, Nat.testBit_lor]

theorem lor80b0 : ∀ m : Fin 64, ((0x80 + m.val) ||| 0xb0) = 0xb0 + m.val % 16 := by decide

theorem split_off_first_cons (b0 b1 b2 : Nat) (rest : List Nat) :
    split_off_first_low_surrogate (b0 :: b1 :: b2 :: rest) =
      (ThreeByteSeq.to_low_surrogate (ThreeByteSeq.new b0 b1 b2)).map fun s => (s, rest) := rfl

theorem to_low_split_arm (w : Nat) (h1 : 0x800000 ≤ w) (h2 : w ≤ 0xbfffff) :
    ThreeByteSeq.to_low_surrogate w =
      if (w ||| 0xb000) % 2 ^ 16 = 0 then none else some ((w ||| 0xb000) % 2 ^ 16) := by
  unfold ThreeByteSeq.to_low_surrogate
  have hc1 : ¬(0xedb000 ≤ w ∧ w ≤ 0xedffff) := by omega
  have hc2 : 0x800000 ≤ w ∧ w ≤ 0xbfffff := ⟨h1, h2⟩
  rw [if_neg hc1, if_pos hc2]

theorem to_low_canonical_arm (w : Nat) (h1 : 0xedb000 ≤ w) (h2 : w ≤ 0xedffff) :
    ThreeByteSeq.to_low_surrogate w = some (w % 2 ^ 16) := by
  unfold ThreeByteSeq.to_low_surrogate
  have hc1 : 0xedb000 ≤ w ∧ w ≤ 0xedffff := ⟨h1, h2⟩
  have hnz : ¬(w % 2 ^ 16 = 0) := by omega
  rw [if_pos hc1, if_neg hnz]

theorem to_low_none_arm (w : Nat) (h1 : ¬(0xedb000 ≤ w ∧ w ≤ 0xedffff))
    (h2 : ¬(0x800000 ≤ w ∧ w ≤ 0xbfffff)) :
    ThreeByteSeq.to_low_surrogate w = none := by
  unfold ThreeByteSeq.to_low_surrogate
  rw [if_neg h1, if_neg h2]
  rfl

theorem to_high_canonical_arm (w : Nat) (h1 : 0xeda000 ≤ w) (h2 : w ≤ 0xedafff) :
    ThreeByteSeq.to_high_surrogate w = some (w % 2 ^ 16) := by
  unfold ThreeByteSeq.to_high_surrogate
  have hc1 : 0xeda000 ≤ w ∧ w ≤ 0xedafff := ⟨h1, h2⟩
  have hnz : ¬(w % 2 ^ 16 = 0) := by omega
  rw [if_pos hc1, if_neg hnz]

theorem to_high_split_arm (w : Nat) (h : 0xf00000 ≤ w) :
    ThreeByteSeq.to_high_surrogate w =
      some (ThreeByteSeq.to_high_surrogate_from_split_repr_unchecked w) := by
  unfold ThreeByteSeq.to_high_surrogate
  have hc1 : ¬(0xeda000 ≤ w ∧ w ≤ 0xedafff) := by omega
  rw [if_neg hc1, if_pos h, if_neg (to_high_surrogate_from_split_repr_ne_zero w)]

theorem to_high_none_arm (w : Nat) (h1 : ¬(0xeda000 ≤ w ∧ w ≤ 0xedafff))
    (h2 : ¬0xf00000 ≤ w) :
    ThreeByteSeq.to_high_surrogate w = none := by
  unfold ThreeByteSeq.to_high_surrogate
  rw [if_neg h1, if_neg h2]
  rfl

/-- The split-form first window of a trailing low-surrogate fragment yields
exactly the internal value of the corresponding low surrogate code point. -/
theorem split_first_lowfrag (c : Nat) (h1 : 0x10000 ≤ c) (h2 : c < 0x110000)
    (rest : List Nat) :
    split_off_first_low_surrogate (SplitLowFragment c ++ rest) =
      some (surrogateInternal (0xdc00 + c % 1024), rest) := by
  have henc : SplitLowFragment c =
      [0x80 + c / 4096 % 64, 0x80 + c / 64 % 64, 0x80 + c % 64] := by
    unfold SplitLowFragment encodeUtf8
    rw [if_neg (by omega), if_neg (by omega), if_neg (by omega)]
    rfl
  rw [henc]
  simp only [List.cons_append, List.nil_append]
  rw [split_off_first_cons]
  rw [tbs_val _ _ _ (by omega) (by omega)]
  rw [to_low_split_arm _ (by omega) (by omega)]
  have hre : (0x80 + c / 4096 % 64) * 65536 + (0x80 + c / 64 % 64) * 256 + (0x80 + c % 64) =
      2 ^ 16 * (0x80 + c / 4096 % 64) + ((0x80 + c / 64 % 64) * 2 ^ 8 + (0x80 + c % 64)) := by
    omega
  rw [hre, lor_add_left _ _ _ 16 (by omega) (by omega)]
  rw [show (0xb000 : Nat) = 0xb0 * 2 ^ 8 + 0 from rfl]
  rw [lor_byte_split _ _ _ _ 8 (by omega) (by omega)]
  rw [lor80b0 ⟨c / 64 % 64, by omega⟩, Nat.or_zero]
  have hsurr : (0xb0 + c / 64 % 64 % 16) * 2 ^ 8 + (0x80 + c % 64) =
      surrogateInternal (0xdc00 + c % 1024) := by
    unfold surrogateInternal
    omega
  rw [hsurr]
  have hnz : ¬(surrogateInternal (0xdc00 + c % 1024) % 2 ^ 16 = 0) := by
    unfold surrogateInternal
    omega
  rw [Nat.mul_add_mod, if_neg hnz]
  rw [Nat.mod_eq_of_lt (by unfold surrogateInternal; omega)]
  rfl

/-- The first window of a canonical low-surrogate encoding yields exactly
its internal value. -/
theorem split_first_canonical_low (c : Nat) (h1 : 0xdc00 ≤ c) (h2 : c < 0xe000)
    (rest : List Nat) :
    split_off_first_low_surrogate (encodeUtf8 c ++ rest) =
      some (surrogateInternal c, rest) := by
  have henc : encodeUtf8 c = [0xe0 + c / 4096, 0x80 + c / 64 % 64, 0x80 + c % 64] := by
    unfold encodeUtf8
    rw [if_neg (by omega), if_neg (by omega), if_pos (by omega)]
  rw [henc]
  simp only [List.cons_append, List.nil_append]
  rw [split_off_first_cons]
  rw [tbs_val _ _ _ (by omega) (by omega)]
  rw [to_low_canonical_arm _ (by omega) (by omega)]
  have hval : ((0xe0 + c / 4096) * 65536 + (0x80 + c / 64 % 64) * 256 + (0x80 + c % 64)) %
      2 ^ 16 = surrogateInternal c := by
    unfold surrogateInternal
    omega
  rw [hval]
  rfl

end Wtf8

namespace Wtf8

/-- Bitwise and distributes over a base-`2 ^ n` digit split. -/
theorem land_byte_split (a b c d n : Nat) (hb : b < 2 ^ n) (hd : d < 2 ^ n) :
    (a * 2 ^ n + b) &&& (c * 2 ^ n + d) = (a &&& c) * 2 ^ n + (b &&& d) := by
  have hbd : b &&& d < 2 ^ n := by
    apply Nat.lt_pow_two_of_testBit
    intro i hi
    rw [Nat.testBit_land,
      Nat.testBit_eq_false_of_lt (lt_of_lt_of_le hb (Nat.pow_le_pow_right (by norm_num) hi))]
    rfl
  apply Nat.eq_of_testBit_eq
  intro j
  rw [Nat.mul_comm a, Nat.mul_comm c, Nat.mul_comm (a &&& c)]
  rw [Nat.testBit_land, Nat.testBit_mul_pow_two_add _ hb j,
    Nat.testBit_mul_pow_two_add _ hd j,
    Nat.testBit_mul_pow_two_add _ hbd j]
  rcases Nat.lt_or_ge j n with h | h
  · simp [h, Nat.testBit_land]
  · simp [Nat.not_lt.mpr h, Nat.testBit_land]

theorem land3_h : ∀ q : Fin 5, ∀ t : Fin 4,
    ((0xf0 + q.val) * 16 + 8 + t.val) &&& 3 = t.val := by decide

theorem land3_l : ∀ a : Fin 16, ∀ s : Fin 4,
    (a.val * 16 + 8 + s.val) &&& 3 = s.val := by decide

theorem land3c_h : ∀ q : Fin 5, ((0xf0 + q.val) * 4 + 2) &&& 0x3c = q.val * 4 := by decide

theorem land3c_l : ∀ m : Fin 64, (m.val * 4 + 2) &&& 0x3c = m.val % 16 * 4 := by decide

/-- The split representation of the leading 3 bytes of the 4-byte encoding
of a supplementary code point is exactly the internal value of the
corresponding high surrogate.  Stated over `x = c / 64`. -/
theorem splitRepr_enc (x : Nat) (hx1 : 0x400 ≤ x) (hx2 : x < 0x4400) :
    ThreeByteSeq.to_high_surrogate_from_split_repr_unchecked
      ((0xf0 + x / 4096) * 65536 + (0x80 + x / 64 % 64) * 256 + (0x80 + x % 64)) =
      surrogateInternal (0xd800 + (x - 0x400) / 16) := by
  have hq : x / 4096 < 5 := by omega
  have hm : x / 64 % 64 < 64 := by omega
  have hr : x % 64 < 64 := by omega
  set q := x / 4096 with hqd
  set m := x / 64 % 64 with hmd
  set r := x % 64 with hrd
  set w := (0xf0 + q) * 65536 + (0x80 + m) * 256 + (0x80 + r) with hwd
  unfold ThreeByteSeq.to_high_surrogate_from_split_repr_unchecked
  rw [Nat.shiftRight_eq_div_pow, Nat.shiftRight_eq_div_pow]
  have hv1 : w / 2 ^ 4 = ((0xf0 + q) * 16 + 8 + m / 16) * 2 ^ 8 + (m % 16 * 16 + 8 + r / 16) := by
    rw [hwd]; omega
  have hv2 : w / 2 ^ 6 = ((0xf0 + q) * 4 + 2) * 2 ^ 8 + (m * 4 + 2) := by
    rw [hwd]; omega
  rw [hv1, hv2]
  rw [show (0x303 : Nat) = 3 * 2 ^ 8 + 3 from rfl,
    show (0x3c3c : Nat) = 0x3c * 2 ^ 8 + 0x3c from rfl]
  rw [land_byte_split _ _ _ _ 8 (by omega) (by norm_num),
    land_byte_split _ _ _ _ 8 (by omega) (by norm_num)]
  rw [land3_h ⟨q, hq⟩ ⟨m / 16, by omega⟩, land3_l ⟨m % 16, by omega⟩ ⟨r / 16, by omega⟩,
    land3c_h ⟨q, hq⟩, land3c_l ⟨m, hm⟩]
  rw [lor_byte_split _ _ _ _ 8 (by omega) (by omega)]
  rw [show m / 16 ||| q * 4 = q * 4 + m / 16 from by
    rw [Nat.lor_comm]
    exact @lor_eq_add_of_disjoint (q * 4) (m / 16) 2 (by omega) (by omega)]
  rw [show r / 16 ||| m % 16 * 4 = m % 16 * 4 + r / 16 from by
    rw [Nat.lor_comm]
    exact @lor_eq_add_of_disjoint (m % 16 * 4) (r / 16) 2 (by omega) (by omega)]
  have hH : q * 4 + m / 16 - 1 < 16 ∧ 1 ≤ q * 4 + m / 16 := by
    constructor
    · rcases Nat.lt_or_ge q 4 with h4 | h4
      · omega
      · have hq4 : q = 4 := by omega
        have hm16 : m < 16 := by
          rw [hmd, hqd] at *
          omega
        omega
    · rcases Nat.eq_zero_or_pos q with h0 | h0
      · have h16 : 0x10 ≤ m := by
          rw [hmd, hqd] at *
          omega
        omega
      · omega
  have hstep4 : ((q * 4 + m / 16) * 2 ^ 8 + (m % 16 * 4 + r / 16) + (2 ^ 32 - 0x100)) % 2 ^ 32 =
      (q * 4 + m / 16 - 1) * 2 ^ 8 + (m % 16 * 4 + r / 16) := by
    omega
  rw [hstep4]
  rw [show (0xa080 : Nat) = 0xa0 * 2 ^ 8 + 0x80 from rfl]
  rw [lor_byte_split _ _ _ _ 8 (by omega) (by norm_num)]
  rw [show q * 4 + m / 16 - 1 ||| 0xa0 = 0xa0 + (q * 4 + m / 16 - 1) from by
    rw [Nat.lor_comm]
    exact @lor_eq_add_of_disjoint 0xa0 (q * 4 + m / 16 - 1) 4 (by norm_num) hH.1]
  rw [show m % 16 * 4 + r / 16 ||| 0x80 = 0x80 + (m % 16 * 4 + r / 16) from by
    rw [Nat.lor_comm]
    exact @lor_eq_add_of_disjoint 0x80 (m % 16 * 4 + r / 16) 7 (by norm_num) (by omega)]
  rw [Nat.mod_eq_of_lt (by omega)]
  unfold surrogateInternal
  set s := (x - 0x400) / 16 with hsd
  have hs : 16 * s ≤ x - 0x400 ∧ x - 0x400 < 16 * s + 16 ∧ s < 1024 := by
    refine ⟨Nat.mul_div_le _ _ |>.trans (le_refl _) |>.trans_eq rfl, ?_, ?_⟩ <;> omega
  clear_value s
  obtain ⟨hs1, hs2, hs3⟩ := hs
  rw [hqd, hmd, hrd] at *
  omega

end Wtf8

namespace Wtf8

theorem window3_append0 (a b : List Nat) : window3 (a ++ b) a.length = window3 b 0 := by
  have h := window3_append a b 0
  rwa [Nat.add_zero] at h

theorem window3_triple (b0 b1 b2 : Nat) (rest : List Nat) :
    window3 (b0 :: b1 :: b2 :: rest) 0 = ThreeByteSeq.new b0 b1 b2 := rfl

theorem getD_lt (l : List Nat) (i : Nat) (h : ∀ b ∈ l, b < 256) : l.getD i 0 < 256 := by
  rcases Nat.lt_or_ge i l.length with hi | hi
  · rw [List.getD_eq_getElem l 0 hi]
    exact h _ (List.getElem_mem hi)
  · rw [List.getD_eq_default l 0 hi]
    norm_num

/-- The last window of a leading high-surrogate fragment yields exactly the
internal value of the corresponding high surrogate code point. -/
theorem split_last_highfrag (front : List Nat) (c : Nat) (h1 : 0x10000 ≤ c)
    (h2 : c < 0x110000) :
    split_off_last_high_surrogate (front ++ SplitHighFragment c) =
      some (surrogateInternal (0xd800 + (c - 0x10000) / 1024), front) := by
  have hfrag : SplitHighFragment c =
      [0xf0 + c / 262144, 0x80 + c / 4096 % 64, 0x80 + c / 64 % 64] := by
    unfold SplitHighFragment encodeUtf8
    rw [if_neg (by omega), if_neg (by omega), if_neg (by omega)]
    rfl
  unfold split_off_last_high_surrogate
  have hlen : (front ++ SplitHighFragment c).length = front.length + 3 := by
    rw [hfrag]
    simp
  rw [hlen, if_pos (by omega), show front.length + 3 - 3 = front.length from by omega]
  rw [window3_append0, hfrag, window3_triple]
  rw [tbs_val _ _ _ (by omega) (by omega)]
  rw [to_high_split_arm _ (by omega)]
  rw [show (0xf0 + c / 262144) * 65536 + (0x80 + c / 4096 % 64) * 256 + (0x80 + c / 64 % 64) =
    (0xf0 + c / 64 / 4096) * 65536 + (0x80 + c / 64 / 64 % 64) * 256 + (0x80 + c / 64 % 64)
    from by omega]
  rw [splitRepr_enc (c / 64) (by omega) (by omega)]
  rw [show (c / 64 - 0x400) / 16 = (c - 0x10000) / 1024 from by omega]
  rw [← hfrag, List.take_left]
  rfl

/-- The last window of a canonical high-surrogate encoding yields exactly
its internal value. -/
theorem split_last_canonical_high (front : List Nat) (c : Nat) (h1 : 0xd800 ≤ c)
    (h2 : c < 0xdc00) :
    split_off_last_high_surrogate (front ++ encodeUtf8 c) =
      some (surrogateInternal c, front) := by
  have henc : encodeUtf8 c = [0xe0 + c / 4096, 0x80 + c / 64 % 64, 0x80 + c % 64] := by
    unfold encodeUtf8
    rw [if_neg (by omega), if_neg (by omega), if_pos (by omega)]
  unfold split_off_last_high_surrogate
  have hlen : (front ++ encodeUtf8 c).length = front.length + 3 := by
    rw [henc]
    simp
  rw [hlen, if_pos (by omega), show front.length + 3 - 3 = front.length from by omega]
  rw [window3_append0, henc, window3_triple]
  rw [tbs_val _ _ _ (by omega) (by omega)]
  rw [to_high_canonical_arm _ (by omega) (by omega)]
  rw [show ((0xe0 + c / 4096) * 65536 + (0x80 + c / 64 % 64) * 256 + (0x80 + c % 64)) % 2 ^ 16 =
    surrogateInternal c from by unfold surrogateInternal; omega]
  rw [← henc, List.take_left]
  rfl

/-- The last byte of a concatenation of encodings is below `0xc0`. -/
theorem encList_last_lt (cps : List Nat) (h : ∀ c ∈ cps, c < 0x110000) (hne : cps ≠ []) :
    (encList cps).getD ((encList cps).length - 1) 0 < 0xc0 := by
  induction cps using List.reverseRecOn with
  | nil => exact absurd rfl hne
  | append_singleton cps0 c ih =>
    clear ih
    have hc : c < 0x110000 := h c (by simp)
    rw [encList_append, encList_singleton]
    have hle : 1 ≤ (encodeUtf8 c).length := enc_length_pos c
    have hidx : (encList cps0 ++ encodeUtf8 c).length - 1 =
        (encList cps0).length + ((encodeUtf8 c).length - 1) := by
      rw [List.length_append]
      omega
    rw [hidx, getD_append_right]
    rcases enc_length c hc with ⟨hr, hl⟩ | ⟨hr1, hr2, hl⟩ | ⟨hr1, hr2, hl⟩ | ⟨hr, hl⟩
    · unfold encodeUtf8
      rw [if_pos hr]
      simp
      omega
    · unfold encodeUtf8
      rw [if_neg (by omega), if_pos hr2]
      simp
      omega
    · unfold encodeUtf8
      rw [if_neg (by omega), if_neg (by omega), if_pos hr2]
      simp
      omega
    · unfold encodeUtf8
      rw [if_neg (by omega), if_neg (by omega), if_neg (by omega)]
      simp
      omega

/-- The second-to-last byte of a concatenation of encodings is below
`0xe0`. -/
theorem encList_pen_lt (cps : List Nat) (h : ∀ c ∈ cps, c < 0x110000)
    (hlen : 2 ≤ (encList cps).length) :
    (encList cps).getD ((encList cps).length - 2) 0 < 0xe0 := by
  induction cps using List.reverseRecOn with
  | nil => simp [encList] at hlen
  | append_singleton cps0 c ih =>
    clear ih
    have hc : c < 0x110000 := h c (by simp)
    rw [encList_append, encList_singleton] at hlen ⊢
    rw [List.length_append] at hlen
    rcases enc_length c hc with ⟨hr, hl⟩ | ⟨hr1, hr2, hl⟩ | ⟨hr1, hr2, hl⟩ | ⟨hr, hl⟩
    · have hcl : (encList cps0).length ≥ 1 := by omega
      have hidx : (encList cps0 ++ encodeUtf8 c).length - 2 = (encList cps0).length - 1 := by
        rw [List.length_append]
        omega
      rw [hidx, getD_append_left _ _ _ _ (by omega)]
      have hlast := encList_last_lt cps0 (fun x hx => h x (by simp [hx]))
        (by intro hn; rw [hn] at hcl; simp [encList] at hcl)
      omega
    · have hidx : (encList cps0 ++ encodeUtf8 c).length - 2 = (encList cps0).length + 0 := by
        rw [List.length_append]
        omega
      rw [hidx, getD_append_right]
      unfold encodeUtf8
      rw [if_neg (by omega), if_pos hr2]
      simpa using by omega
    · have hidx : (encList cps0 ++ encodeUtf8 c).length - 2 = (encList cps0).length + 1 := by
        rw [List.length_append]
        omega
      rw [hidx, getD_append_right]
      unfold encodeUtf8
      rw [if_neg (by omega), if_neg (by omega), if_pos hr2]
      simpa using by omega
    · have hidx : (encList cps0 ++ encodeUtf8 c).length - 2 = (encList cps0).length + 2 := by
        rw [List.length_append]
        omega
      rw [hidx, getD_append_right]
      unfold encodeUtf8
      rw [if_neg (by omega), if_neg (by omega), if_neg (by omega)]
      simpa using by omega

end Wtf8

namespace Wtf8

theorem window3_quad1 (b0 b1 b2 b3 : Nat) (rest : List Nat) :
    window3 (b0 :: b1 :: b2 :: b3 :: rest) 1 = ThreeByteSeq.new b1 b2 b3 := rfl

/-- Splitting a low surrogate off the front of a non-low-surrogate
encoding fails. -/
theorem split_first_none (c : Nat) (hc : c < 0x110000) (hnl : ¬(0xdc00 ≤ c ∧ c < 0xe000))
    (rest : List Nat) (hrb : ∀ b ∈ rest, b < 256) :
    split_off_first_low_surrogate (encodeUtf8 c ++ rest) = none := by
  rcases enc_length c hc with ⟨hr, hl⟩ | ⟨hr1, hr2, hl⟩ | ⟨hr1, hr2, hl⟩ | ⟨hr, hl⟩
  · have henc : encodeUtf8 c = [c] := by
      unfold encodeUtf8
      rw [if_pos hr]
    rw [henc]
    cases rest with
    | nil => rfl
    | cons r0 rest1 =>
      cases rest1 with
      | nil => rfl
      | cons r1 rest2 =>
        simp only [List.cons_append, List.nil_append]
        rw [split_off_first_cons]
        have h0 : r0 < 256 := hrb r0 (by simp)
        have h1x : r1 < 256 := hrb r1 (by simp)
        rw [tbs_val _ _ _ h0 h1x]
        rw [to_low_none_arm _ (by omega) (by omega)]
        rfl
  · have henc : encodeUtf8 c = [0xc0 + c / 64, 0x80 + c % 64] := by
      unfold encodeUtf8
      rw [if_neg (by omega), if_pos hr2]
    rw [henc]
    cases rest with
    | nil => rfl
    | cons r0 rest1 =>
      simp only [List.cons_append, List.nil_append]
      rw [split_off_first_cons]
      have h0 : r0 < 256 := hrb r0 (by simp)
      rw [tbs_val _ _ _ (by omega) h0]
      rw [to_low_none_arm _ (by omega) (by omega)]
      rfl
  · have henc : encodeUtf8 c = [0xe0 + c / 4096, 0x80 + c / 64 % 64, 0x80 + c % 64] := by
      unfold encodeUtf8
      rw [if_neg (by omega), if_neg (by omega), if_pos hr2]
    rw [henc]
    simp only [List.cons_append, List.nil_append]
    rw [split_off_first_cons]
    rw [tbs_val _ _ _ (by omega) (by omega)]
    have hdd : c / 64 / 64 = c / 4096 := by omega
    rw [to_low_none_arm _ (by omega) (by omega)]
    rfl
  · have henc : encodeUtf8 c = [0xf0 + c / 262144, 0x80 + c / 4096 % 64, 0x80 + c / 64 % 64,
        0x80 + c % 64] := by
      unfold encodeUtf8
      rw [if_neg (by omega), if_neg (by omega), if_neg (by omega)]
    rw [henc]
    simp only [List.cons_append, List.nil_append]
    rw [split_off_first_cons]
    rw [tbs_val _ _ _ (by omega) (by omega)]
    rw [to_low_none_arm _ (by omega) (by omega)]
    rfl

/-- Splitting a low surrogate off the front of a split high-surrogate
fragment fails (its first byte is at least `0xf0`). -/
theorem split_first_highfrag_none (c : Nat) (h1 : 0x10000 ≤ c) (h2 : c < 0x110000)
    (rest : List Nat) :
    split_off_first_low_surrogate (SplitHighFragment c ++ rest) = none := by
  have hfrag : SplitHighFragment c =
      [0xf0 + c / 262144, 0x80 + c / 4096 % 64, 0x80 + c / 64 % 64] := by
    unfold SplitHighFragment encodeUtf8
    rw [if_neg (by omega), if_neg (by omega), if_neg (by omega)]
    rfl
  rw [hfrag]
  simp only [List.cons_append, List.nil_append]
  rw [split_off_first_cons]
  rw [tbs_val _ _ _ (by omega) (by omega)]
  rw [to_low_none_arm _ (by omega) (by omega)]
  rfl

/-- Splitting a high surrogate off the back of a concatenation of
encodings whose last code point is not a high surrogate fails. -/
theorem split_last_none (cps : List Nat) (h : ∀ c ∈ cps, c < 0x110000)
    (hlast : ∀ c, cps.getLast? = some c → ¬isHigh c) :
    split_off_last_high_surrogate (encList cps) = none := by
  induction cps using List.reverseRecOn with
  | nil =>
    unfold split_off_last_high_surrogate
    have hn : ¬(3 ≤ (encList ([] : List Nat)).length) := by simp [encList]
    rw [if_neg hn]
  | append_singleton cps0 c ih =>
    clear ih
    have hc : c < 0x110000 := h c (by simp)
    have hnh : ¬(0xd800 ≤ c ∧ c < 0xdc00) := by
      have := hlast c (List.getLast?_concat cps0)
      unfold isHigh at this
      exact this
    have hsub : ∀ x ∈ cps0, x < 0x110000 := fun x hx => h x (by simp [hx])
    have hbts := encList_bytes_lt cps0 hsub
    rw [encList_append, encList_singleton]
    set n0 := (encList cps0).length with hn0d
    rcases Nat.lt_or_ge (encList cps0 ++ encodeUtf8 c).length 3 with hsh | hlen3
    · unfold split_off_last_high_surrogate
      rw [if_neg (by omega)]
    · unfold split_off_last_high_surrogate
      rw [if_pos hlen3]
      rcases enc_length c hc with ⟨hr, hl⟩ | ⟨hr1, hr2, hl⟩ | ⟨hr1, hr2, hl⟩ | ⟨hr, hl⟩
      · have henc : encodeUtf8 c = [c] := by
          unfold encodeUtf8
          rw [if_pos hr]
        have hL : (encList cps0 ++ encodeUtf8 c).length = n0 + 1 := by
          rw [List.length_append, hl]
        have hn2 : 2 ≤ n0 := by omega
        rw [hL, show n0 + 1 - 3 = n0 - 2 from by omega]
        unfold window3
        have e0 : (encList cps0 ++ encodeUtf8 c).getD (n0 - 2) 0 =
            (encList cps0).getD (n0 - 2) 0 := getD_append_left _ _ _ _ (by omega)
        have e1 : (encList cps0 ++ encodeUtf8 c).getD (n0 - 2 + 1) 0 =
            (encList cps0).getD (n0 - 1) 0 := by
          rw [show n0 - 2 + 1 = n0 - 1 from by omega]
          exact getD_append_left _ _ _ _ (by omega)
        have e2 : (encList cps0 ++ encodeUtf8 c).getD (n0 - 2 + 2) 0 = c := by
          rw [show n0 - 2 + 2 = n0 + 0 from by omega, getD_append_right, henc]
          rfl
        rw [e0, e1, e2]
        have hb0 : (encList cps0).getD (n0 - 2) 0 < 0xe0 := by
          have := encList_pen_lt cps0 hsub (by omega)
          rwa [← hn0d] at this
        have hb1 : (encList cps0).getD (n0 - 1) 0 < 256 := getD_lt _ _ hbts
        rw [tbs_val _ _ _ hb1 (by omega)]
        rw [to_high_none_arm _ (by omega) (by omega)]
        rfl
      · have henc : encodeUtf8 c = [0xc0 + c / 64, 0x80 + c % 64] := by
          unfold encodeUtf8
          rw [if_neg (by omega), if_pos hr2]
        have hL : (encList cps0 ++ encodeUtf8 c).length = n0 + 2 := by
          rw [List.length_append, hl]
        have hn1 : 1 ≤ n0 := by omega
        have hne : cps0 ≠ [] := by
          intro hn
          rw [hn] at hn0d
          simp [encList] at hn0d
          omega
        rw [hL, show n0 + 2 - 3 = n0 - 1 from by omega]
        unfold window3
        have e0 : (encList cps0 ++ encodeUtf8 c).getD (n0 - 1) 0 =
            (encList cps0).getD (n0 - 1) 0 := getD_append_left _ _ _ _ (by omega)
        have e1 : (encList cps0 ++ encodeUtf8 c).getD (n0 - 1 + 1) 0 =
            (encodeUtf8 c).getD 0 0 := by
          rw [show n0 - 1 + 1 = n0 + 0 from by omega, getD_append_right]
        have e2 : (encList cps0 ++ encodeUtf8 c).getD (n0 - 1 + 2) 0 =
            (encodeUtf8 c).getD 1 0 := by
          rw [show n0 - 1 + 2 = n0 + 1 from by omega, getD_append_right]
        rw [e0, e1, e2, henc]
        have hb0 : (encList cps0).getD (n0 - 1) 0 < 0xc0 := by
          have := encList_last_lt cps0 hsub hne
          rwa [← hn0d] at this
        rw [show ([0xc0 + c / 64, 0x80 + c % 64].getD 0 0) = 0xc0 + c / 64 from rfl,
          show ([0xc0 + c / 64, 0x80 + c % 64].getD 1 0) = 0x80 + c % 64 from rfl]
        rw [tbs_val _ _ _ (by omega) (by omega)]
        rw [to_high_none_arm _ (by omega) (by omega)]
        rfl
      · have henc : encodeUtf8 c = [0xe0 + c / 4096, 0x80 + c / 64 % 64, 0x80 + c % 64] := by
          unfold encodeUtf8
          rw [if_neg (by omega), if_neg (by omega), if_pos hr2]
        have hL : (encList cps0 ++ encodeUtf8 c).length = n0 + 3 := by
          rw [List.length_append, hl]
        rw [hL, show n0 + 3 - 3 = n0 from by omega, hn0d, window3_append0, henc,
          window3_triple]
        rw [tbs_val _ _ _ (by omega) (by omega)]
        have hdd : c / 64 / 64 = c / 4096 := by omega
        rw [to_high_none_arm _ (by omega) (by omega)]
        rfl
      · have henc : encodeUtf8 c = [0xf0 + c / 262144, 0x80 + c / 4096 % 64,
            0x80 + c / 64 % 64, 0x80 + c % 64] := by
          unfold encodeUtf8
          rw [if_neg (by omega), if_neg (by omega), if_neg (by omega)]
        have hL : (encList cps0 ++ encodeUtf8 c).length = n0 + 4 := by
          rw [List.length_append, hl]
        rw [hL, show n0 + 4 - 3 = n0 + 1 from by omega, hn0d, window3_append, henc,
          window3_quad1]
        rw [tbs_val _ _ _ (by omega) (by omega)]
        rw [to_high_none_arm _ (by omega) (by omega)]
        rfl

end Wtf8

namespace Wtf8

theorem optFrag_low_bytes_lt (lo : Option Nat) (h : ∀ c ∈ lo, 0x10000 ≤ c ∧ c < 0x110000) :
    ∀ b ∈ optFrag SplitLowFragment lo, b < 256 := by
  intro b hb
  cases lo with
  | none => simp [optFrag] at hb
  | some cl =>
    have hcl := h cl rfl
    exact enc_bytes_lt cl hcl.2 b (List.drop_subset _ _ hb)

theorem optFrag_high_bytes_lt (hi : Option Nat) (h : ∀ c ∈ hi, 0x10000 ≤ c ∧ c < 0x110000) :
    ∀ b ∈ optFrag SplitHighFragment hi, b < 256 := by
  intro b hb
  cases hi with
  | none => simp [optFrag] at hb
  | some ch =>
    have hch := h ch rfl
    exact enc_bytes_lt ch hch.2 b (List.take_subset _ _ hb)

/-- Case analysis of `split_off_last_high_surrogate` on the encoded middle
followed by an optional split high fragment. -/
theorem split_last_mid (cpsM : List Nat) (hb : ∀ c ∈ cpsM, c < 0x110000) (hi : Option Nat)
    (hhi : ∀ c ∈ hi, 0x10000 ≤ c ∧ c < 0x110000) :
    (∃ ch, hi = some ch ∧
      split_off_last_high_surrogate (encList cpsM ++ optFrag SplitHighFragment hi) =
        some (surrogateInternal (0xd800 + (ch - 0x10000) / 1024), encList cpsM)) ∨
    (∃ tailCps hcp, hi = none ∧ cpsM = tailCps ++ [hcp] ∧ isHigh hcp ∧
      split_off_last_high_surrogate (encList cpsM ++ optFrag SplitHighFragment hi) =
        some (surrogateInternal hcp, encList tailCps)) ∨
    (hi = none ∧ (∀ c, cpsM.getLast? = some c → ¬isHigh c) ∧
      split_off_last_high_surrogate (encList cpsM ++ optFrag SplitHighFragment hi) = none) := by
  cases hi with
  | some ch =>
    left
    refine ⟨ch, rfl, ?_⟩
    have hch := hhi ch rfl
    exact split_last_highfrag (encList cpsM) ch hch.1 hch.2
  | none =>
    rcases List.eq_nil_or_concat cpsM with hnil | ⟨tail, c, hconc⟩
    · right; right
      refine ⟨rfl, by simp [hnil], ?_⟩
      rw [hnil]
      show split_off_last_high_surrogate (encList [] ++ []) = none
      rw [List.append_nil]
      exact split_last_none [] (by simp) (by simp)
    · rw [List.concat_eq_append] at hconc
      by_cases hih : isHigh c
      · right; left
        refine ⟨tail, c, rfl, hconc, hih, ?_⟩
        show split_off_last_high_surrogate (encList cpsM ++ []) = _
        rw [List.append_nil, hconc, encList_append, encList_singleton]
        exact split_last_canonical_high _ c hih.1 hih.2
      · right; right
        refine ⟨rfl, ?_, ?_⟩
        · intro x hx
          rw [hconc, List.getLast?_concat] at hx
          cases hx
          exact hih
        · show split_off_last_high_surrogate (encList cpsM ++ []) = none
          rw [List.append_nil]
          refine split_last_none cpsM hb ?_
          intro x hx
          rw [hconc, List.getLast?_concat] at hx
          cases hx
          exact hih

/-- Case analysis of `split_off_first_low_surrogate` on a valid OMG-WTF-8
byte sequence. -/
theorem split_first_omg (lo : Option Nat) (cps : List Nat) (hi : Option Nat)
    (hlo : ∀ c ∈ lo, 0x10000 ≤ c ∧ c < 0x110000)
    (hb : ∀ c ∈ cps, c < 0x110000)
    (hhi : ∀ c ∈ hi, 0x10000 ≤ c ∧ c < 0x110000) :
    (∃ cl, lo = some cl ∧
      split_off_first_low_surrogate
          (optFrag SplitLowFragment lo ++ encList cps ++ optFrag SplitHighFragment hi) =
        some (surrogateInternal (0xdc00 + cl % 1024),
          encList cps ++ optFrag SplitHighFragment hi)) ∨
    (∃ c cps2, lo = none ∧ cps = c :: cps2 ∧ isLow c ∧
      split_off_first_low_surrogate
          (optFrag SplitLowFragment lo ++ encList cps ++ optFrag SplitHighFragment hi) =
        some (surrogateInternal c, encList cps2 ++ optFrag SplitHighFragment hi)) ∨
    (lo = none ∧ (∀ c, cps.head? = some c → ¬isLow c) ∧
      split_off_first_low_surrogate
          (optFrag SplitLowFragment lo ++ encList cps ++ optFrag SplitHighFragment hi) =
        none) := by
  cases lo with
  | some cl =>
    left
    refine ⟨cl, rfl, ?_⟩
    have hcl := hlo cl rfl
    rw [List.append_assoc]
    exact split_first_lowfrag cl hcl.1 hcl.2 _
  | none =>
    cases cps with
    | nil =>
      right; right
      refine ⟨rfl, by simp, ?_⟩
      show split_off_first_low_surrogate ([] ++ encList [] ++ optFrag SplitHighFragment hi) = none
      rw [List.nil_append, show encList [] = [] from rfl, List.nil_append]
      cases hi with
      | none => rfl
      | some ch =>
        have hch := hhi ch rfl
        show split_off_first_low_surrogate (SplitHighFragment ch) = none
        rw [show SplitHighFragment ch = SplitHighFragment ch ++ [] from by rw [List.append_nil]]
        exact split_first_highfrag_none ch hch.1 hch.2 []
    | cons c cps2 =>
      have hc := hb c (by simp)
      by_cases hil : isLow c
      · right; left
        refine ⟨c, cps2, rfl, rfl, hil, ?_⟩
        show split_off_first_low_surrogate ([] ++ encList (c :: cps2) ++ _) = _
        rw [List.nil_append, encList_cons, List.append_assoc]
        exact split_first_canonical_low c hil.1 hil.2 _
      · right; right
        refine ⟨rfl, ?_, ?_⟩
        · intro x hx
          cases hx
          exact hil
        · show split_off_first_low_surrogate ([] ++ encList (c :: cps2) ++ _) = none
          rw [List.nil_append, encList_cons, List.append_assoc]
          refine split_first_none c hc (by unfold isLow at hil; exact hil) _ ?_
          intro b hbm
          rw [List.mem_append] at hbm
          rcases hbm with hbm | hbm
          · exact encList_bytes_lt cps2 (fun x hx => hb x (by simp [hx])) b hbm
          · exact optFrag_high_bytes_lt hi hhi b hbm

end Wtf8

namespace Wtf8

theorem optFrag_none (f : Nat → List Nat) : optFrag f none = [] := rfl

theorem optFrag_some (f : Nat → List Nat) (c : Nat) : optFrag f (some c) = f c := rfl

theorem canonicalize_eq_some (l : List Nat) (v : Nat) (r1 : List Nat)
    (h : split_off_first_low_surrogate l = some (v, r1)) :
    canonicalize l = match split_off_last_high_surrogate r1 with
      | some (high, mid) => (some v, mid, some high)
      | none => (some v, r1, none) := by
  unfold canonicalize
  rw [h]

theorem canonicalize_eq_none (l : List Nat)
    (h : split_off_first_low_surrogate l = none) :
    canonicalize l = match split_off_last_high_surrogate l with
      | some (high, mid) => (none, mid, some high)
      | none => (none, l, none) := by
  unfold canonicalize
  rw [h]

/-- Full characterization of `canonicalize` on a valid OMG-WTF-8 slice:
the low and high results are internal values of genuine surrogate code
points, the middle is a well-formed encoding, and when no low surrogate is
returned the middle does not start with one. -/
theorem canonicalize_validOmg (lo : Option Nat) (cps : List Nat) (hi : Option Nat)
    (hlo : ∀ c ∈ lo, 0x10000 ≤ c ∧ c < 0x110000)
    (hcps : WfCps cps) (hhi : ∀ c ∈ hi, 0x10000 ≤ c ∧ c < 0x110000) :
    ∃ lcp midCps hcp,
      canonicalize
          (optFrag SplitLowFragment lo ++ encList cps ++ optFrag SplitHighFragment hi) =
        (lcp.map surrogateInternal, encList midCps, hcp.map surrogateInternal) ∧
      WfCps midCps ∧
      (∀ c, lcp = some c → isLow c) ∧
      (∀ c, hcp = some c → isHigh c) ∧
      (lcp = none → ∀ c, midCps.head? = some c → ¬isLow c) := by
  obtain ⟨hbound, hnp⟩ := hcps
  rcases split_first_omg lo cps hi hlo hbound hhi with
    ⟨cl, hlo_eq, hsf⟩ | ⟨c, cps2, hlo_eq, hcps_eq, hil, hsf⟩ | ⟨hlo_eq, hhead, hsf⟩
  · rcases split_last_mid cps hbound hi hhi with
      ⟨ch, hhi_eq, hsl⟩ | ⟨tailCps, hcp0, hhi_eq, hconc, hih, hsl⟩ | ⟨hhi_eq, hlastnh, hsl⟩
    · refine ⟨some (0xdc00 + cl % 1024), cps, some (0xd800 + (ch - 0x10000) / 1024),
        ?_, ⟨hbound, hnp⟩, ?_, ?_, ?_⟩
      · rw [canonicalize_eq_some _ _ _ hsf, hsl]
        first
        | rfl
        | (rw [hhi_eq]; simp [optFrag])
      · intro x hx
        cases hx
        exact ⟨by omega, by omega⟩
      · intro x hx
        cases hx
        have hch := hhi ch (by rw [hhi_eq]; rfl)
        exact ⟨by omega, by omega⟩
      · intro hn
        simp at hn
    · refine ⟨some (0xdc00 + cl % 1024), tailCps, some hcp0, ?_, ?_, ?_, ?_, ?_⟩
      · rw [canonicalize_eq_some _ _ _ hsf, hsl]
        first
        | rfl
        | (rw [hhi_eq]; simp [optFrag])
      · refine ⟨fun x hx => hbound x (by rw [hconc]; simp [hx]), ?_⟩
        rw [hconc] at hnp
        exact np_append_left hnp
      · intro x hx
        cases hx
        exact ⟨by omega, by omega⟩
      · intro x hx
        cases hx
        exact hih
      · intro hn
        simp at hn
    · refine ⟨some (0xdc00 + cl % 1024), cps, none, ?_, ⟨hbound, hnp⟩, ?_, ?_, ?_⟩
      · rw [canonicalize_eq_some _ _ _ hsf, hsl]
        first
        | rfl
        | (rw [hhi_eq]; simp [optFrag])
      · intro x hx
        cases hx
        exact ⟨by omega, by omega⟩
      · intro x hx
        simp at hx
      · intro hn
        simp at hn
  · have hb2 : ∀ x ∈ cps2, x < 0x110000 := fun x hx => hbound x (by rw [hcps_eq]; simp [hx])
    have hnp2 : NoPair cps2 := by
      rw [hcps_eq] at hnp
      exact np_tail hnp
    rcases split_last_mid cps2 hb2 hi hhi with
      ⟨ch, hhi_eq, hsl⟩ | ⟨tailCps, hcp0, hhi_eq, hconc, hih, hsl⟩ | ⟨hhi_eq, hlastnh, hsl⟩
    · refine ⟨some c, cps2, some (0xd800 + (ch - 0x10000) / 1024),
        ?_, ⟨hb2, hnp2⟩, ?_, ?_, ?_⟩
      · rw [canonicalize_eq_some _ _ _ hsf, hsl]
        first
        | rfl
        | (rw [hhi_eq]; simp [optFrag])
      · intro x hx
        cases hx
        exact hil
      · intro x hx
        cases hx
        have hch := hhi ch (by rw [hhi_eq]; rfl)
        exact ⟨by omega, by omega⟩
      · intro hn
        simp at hn
    · refine ⟨some c, tailCps, some hcp0, ?_, ?_, ?_, ?_, ?_⟩
      · rw [canonicalize_eq_some _ _ _ hsf, hsl]
        first
        | rfl
        | (rw [hhi_eq]; simp [optFrag])
      · refine ⟨fun x hx => hb2 x (by rw [hconc]; simp [hx]), ?_⟩
        rw [hconc] at hnp2
        exact np_append_left hnp2
      · intro x hx
        cases hx
        exact hil
      · intro x hx
        cases hx
        exact hih
      · intro hn
        simp at hn
    · refine ⟨some c, cps2, none, ?_, ⟨hb2, hnp2⟩, ?_, ?_, ?_⟩
      · rw [canonicalize_eq_some _ _ _ hsf, hsl]
        first
        | rfl
        | (rw [hhi_eq]; simp [optFrag])
      · intro x hx
        cases hx
        exact hil
      · intro x hx
        simp at hx
      · intro hn
        simp at hn
  · rcases split_last_mid cps hbound hi hhi with
      ⟨ch, hhi_eq, hsl⟩ | ⟨tailCps, hcp0, hhi_eq, hconc, hih, hsl⟩ | ⟨hhi_eq, hlastnh, hsl⟩
    · refine ⟨none, cps, some (0xd800 + (ch - 0x10000) / 1024),
        ?_, ⟨hbound, hnp⟩, ?_, ?_, ?_⟩
      · rw [canonicalize_eq_none _ hsf, hlo_eq, optFrag_none, List.nil_append, hsl]
        first
        | rfl
        | (rw [hhi_eq]; simp [optFrag])
      · intro x hx
        simp at hx
      · intro x hx
        cases hx
        have hch := hhi ch (by rw [hhi_eq]; rfl)
        exact ⟨by omega, by omega⟩
      · intro _
        exact hhead
    · refine ⟨none, tailCps, some hcp0, ?_, ?_, ?_, ?_, ?_⟩
      · rw [canonicalize_eq_none _ hsf, hlo_eq, optFrag_none, List.nil_append, hsl]
        first
        | rfl
        | (rw [hhi_eq]; simp [optFrag])
      · refine ⟨fun x hx => hbound x (by rw [hconc]; simp [hx]), ?_⟩
        rw [hconc] at hnp
        exact np_append_left hnp
      · intro x hx
        simp at hx
      · intro x hx
        cases hx
        exact hih
      · intro _ x hx
        apply hhead x
        rw [hconc]
        cases tailCps with
        | nil => exact absurd hx (by simp)
        | cons t ts =>
          rw [List.cons_append, List.head?_cons]
          rw [List.head?_cons] at hx
          exact hx
    · refine ⟨none, cps, none, ?_, ⟨hbound, hnp⟩, ?_, ?_, ?_⟩
      · rw [canonicalize_eq_none _ hsf, hlo_eq, optFrag_none, List.nil_append, hsl]
        first
        | rfl
        | (rw [hhi_eq]; simp [optFrag])
      · intro x hx
        simp at hx
      · intro x hx
        simp at hx
      · intro _
        exact hhead

end Wtf8

namespace Wtf8

theorem push_low_eq_none (buf : List Nat) (t : Nat)
    (h : split_off_last_high_surrogate buf = none) :
    push_low_surrogate buf t = buf ++ LowSurrogate.decode t := by
  unfold push_low_surrogate
  rw [h]

theorem push_low_eq_some (buf : List Nat) (t lead : Nat) (rest : List Nat)
    (h : split_off_last_high_surrogate buf = some (lead, rest)) :
    push_low_surrogate buf t = rest ++ decode_surrogate_pair lead t := by
  unfold push_low_surrogate
  rw [h]

set_option maxRecDepth 2000 in
/-- Pushing a low surrogate through the concatenation check keeps the
buffer canonical, and the new last code point is never a high surrogate. -/
theorem push_low_surrogate_canonical (cpsB : List Nat) (hwf : WfCps cpsB) (lcp : Nat)
    (hl : isLow lcp) :
    ∃ cpsB1, WfCps cpsB1 ∧
      push_low_surrogate (encList cpsB) (surrogateInternal lcp) = encList cpsB1 ∧
      (∀ c, cpsB1.getLast? = some c → ¬isHigh c) := by
  obtain ⟨hbound, hnp⟩ := hwf
  have hlcp1 : 0xdc00 ≤ lcp := hl.1
  have hlcp2 : lcp < 0xe000 := hl.2
  rcases List.eq_nil_or_concat cpsB with hnil | ⟨tail, c, hconc⟩
  · refine ⟨[lcp], ⟨by intro x hx; simp at hx; omega, trivial⟩, ?_, ?_⟩
    · rw [hnil, push_low_eq_none _ _ (split_last_none [] (by simp) (by simp))]
      rw [decode_surrogateInternal_low lcp (by omega) (by omega)]
      rw [encList_singleton]
      rfl
    · intro x hx
      simp at hx
      unfold isHigh
      omega
  · rw [List.concat_eq_append] at hconc
    by_cases hih : isHigh c
    · have hc1 : 0xd800 ≤ c := hih.1
      have hc2 : c < 0xdc00 := hih.2
      have hsl : split_off_last_high_surrogate (encList cpsB) =
          some (surrogateInternal c, encList tail) := by
        rw [hconc, encList_append, encList_singleton]
        exact split_last_canonical_high _ c hc1 hc2
      refine ⟨tail ++ [0x10000 + (c - 0xd800) * 1024 + (lcp - 0xdc00)], ⟨?_, ?_⟩, ?_, ?_⟩
      · intro x hx
        rw [List.mem_append] at hx
        rcases hx with hx | hx
        · exact hbound x (by rw [hconc]; simp [hx])
        · simp at hx
          omega
      · refine np_append_head_not_low ?_ trivial ?_
        · rw [hconc] at hnp
          exact np_append_left hnp
        · intro x hx
          simp at hx
          unfold isLow
          omega
      · rw [push_low_eq_some _ _ _ _ hsl]
        rw [dsp_correct c lcp hc1 hc2 hlcp1 hlcp2]
        rw [encList_append, encList_singleton]
      · intro x hx
        rw [List.getLast?_concat] at hx
        have hx2 := Option.some.inj hx
        unfold isHigh
        omega
    · have hsl : split_off_last_high_surrogate (encList cpsB) = none := by
        refine split_last_none cpsB hbound ?_
        intro x hx
        rw [hconc, List.getLast?_concat] at hx
        cases hx
        exact hih
      refine ⟨cpsB ++ [lcp], ⟨?_, ?_⟩, ?_, ?_⟩
      · intro x hx
        rw [List.mem_append] at hx
        rcases hx with hx | hx
        · exact hbound x hx
        · simp at hx
          omega
      · refine np_append_last_not_high hnp trivial ?_
        intro x hx
        rw [hconc, List.getLast?_concat] at hx
        cases hx
        exact hih
      · rw [push_low_eq_none _ _ hsl]
        rw [decode_surrogateInternal_low lcp (by omega) (by omega)]
        rw [encList_append, encList_singleton]
      · intro x hx
        rw [List.getLast?_concat] at hx
        have hx2 := Option.some.inj hx
        unfold isHigh
        omega

theorem push_wtf8_eq_ss (buf other : List Nat) (l0 : Nat) (mid : List Nat) (h0 : Nat)
    (hc : canonicalize other = (some l0, mid, some h0)) :
    push_wtf8 buf other = (push_low_surrogate buf l0 ++ mid) ++ HighSurrogate.decode h0 := by
  unfold push_wtf8
  rw [hc]

theorem push_wtf8_eq_sn (buf other : List Nat) (l0 : Nat) (mid : List Nat)
    (hc : canonicalize other = (some l0, mid, none)) :
    push_wtf8 buf other = push_low_surrogate buf l0 ++ mid := by
  unfold push_wtf8
  rw [hc]

theorem push_wtf8_eq_ns (buf other : List Nat) (mid : List Nat) (h0 : Nat)
    (hc : canonicalize other = (none, mid, some h0)) :
    push_wtf8 buf other = (buf ++ mid) ++ HighSurrogate.decode h0 := by
  unfold push_wtf8
  rw [hc]

theorem push_wtf8_eq_nn (buf other : List Nat) (mid : List Nat)
    (hc : canonicalize other = (none, mid, none)) :
    push_wtf8 buf other = buf ++ mid := by
  unfold push_wtf8
  rw [hc]

/-- Concatenating a canonical buffer, an encoded middle whose head is
constrained, and an optional trailing high surrogate stays canonical. -/
theorem mid_high_assemble (cpsB1 midCps : List Nat) (hcp : Option Nat)
    (hwf1 : WfCps cpsB1) (hwfM : WfCps midCps)
    (hseam : (∀ c, cpsB1.getLast? = some c → ¬isHigh c) ∨
      (∀ c, midCps.head? = some c → ¬isLow c))
    (hhigh : ∀ c, hcp = some c → isHigh c) :
    ∃ cps2, WfCps cps2 ∧
      (encList cpsB1 ++ encList midCps) ++
        (match hcp.map surrogateInternal with
          | some h0 => HighSurrogate.decode h0 | none => []) = encList cps2 := by
  have hmid : WfCps (cpsB1 ++ midCps) := by
    refine ⟨?_, ?_⟩
    · intro x hx
      rw [List.mem_append] at hx
      rcases hx with hx | hx
      · exact hwf1.1 x hx
      · exact hwfM.1 x hx
    · rcases hseam with hseam | hseam
      · exact np_append_last_not_high hwf1.2 hwfM.2 hseam
      · exact np_append_head_not_low hwf1.2 hwfM.2 hseam
  cases hcp with
  | none =>
    refine ⟨cpsB1 ++ midCps, hmid, ?_⟩
    show (encList cpsB1 ++ encList midCps) ++ [] = encList (cpsB1 ++ midCps)
    rw [encList_append, List.append_nil]
  | some h0 =>
    have hih := hhigh h0 rfl
    have h1 : 0xd800 ≤ h0 := hih.1
    have h2 : h0 < 0xdc00 := hih.2
    refine ⟨(cpsB1 ++ midCps) ++ [h0], ⟨?_, ?_⟩, ?_⟩
    · intro x hx
      rw [List.mem_append] at hx
      rcases hx with hx | hx
      · exact hmid.1 x hx
      · simp at hx
        omega
    · refine np_append_head_not_low hmid.2 trivial ?_
      intro x hx
      simp at hx
      unfold isLow
      omega
    · show (encList cpsB1 ++ encList midCps) ++ HighSurrogate.decode (surrogateInternal h0) =
        encList ((cpsB1 ++ midCps) ++ [h0])
      rw [decode_surrogateInternal h0 h1 (by omega)]
      rw [encList_append, encList_append, encList_singleton]

/-- `push_wtf8` of a valid OMG-WTF-8 slice onto a canonical buffer keeps
the buffer canonical. -/
theorem push_wtf8_canonical (b o : List Nat) (hb : Canonical b) (ho : ValidOmg o) :
    Canonical (push_wtf8 b o) := by
  obtain ⟨cpsB, hwfB, hbeq⟩ := hb
  obtain ⟨lo, cpsO, hi, hlo, hwfO, hhi, hoeq⟩ := ho
  obtain ⟨lcp, midCps, hcp, hcanon, hwfM, hlow, hhigh, hheadM⟩ :=
    canonicalize_validOmg lo cpsO hi hlo hwfO hhi
  rw [hoeq, hbeq]
  cases lcp with
  | some l0 =>
    obtain ⟨cpsB1, hwf1, heq1, hlast1⟩ :=
      push_low_surrogate_canonical cpsB hwfB l0 (hlow l0 rfl)
    obtain ⟨cps2, hwf2, heq2⟩ :=
      mid_high_assemble cpsB1 midCps hcp hwf1 hwfM (Or.inl hlast1) hhigh
    refine ⟨cps2, hwf2, ?_⟩
    cases hcp with
    | some h0 =>
      have hcanon2 : canonicalize
          (optFrag SplitLowFragment lo ++ encList cpsO ++ optFrag SplitHighFragment hi) =
          (some (surrogateInternal l0), encList midCps, some (surrogateInternal h0)) := hcanon
      rw [push_wtf8_eq_ss _ _ _ _ _ hcanon2, heq1]
      rw [show HighSurrogate.decode (surrogateInternal h0) =
          (match Option.map surrogateInternal (some h0) with
            | some x => HighSurrogate.decode x | none => []) from rfl]
      exact heq2
    | none =>
      have hcanon2 : canonicalize
          (optFrag SplitLowFragment lo ++ encList cpsO ++ optFrag SplitHighFragment hi) =
          (some (surrogateInternal l0), encList midCps, none) := hcanon
      rw [push_wtf8_eq_sn _ _ _ _ hcanon2, heq1]
      rw [show (encList cpsB1 ++ encList midCps : List Nat) =
          (encList cpsB1 ++ encList midCps) ++
            (match Option.map surrogateInternal (none : Option Nat) with
              | some x => HighSurrogate.decode x | none => []) from by
        rw [show Option.map surrogateInternal (none : Option Nat) = none from rfl,
          List.append_nil]]
      exact heq2
  | none =>
    obtain ⟨cps2, hwf2, heq2⟩ :=
      mid_high_assemble cpsB midCps hcp hwfB hwfM (Or.inr (hheadM rfl)) hhigh
    refine ⟨cps2, hwf2, ?_⟩
    cases hcp with
    | some h0 =>
      have hcanon2 : canonicalize
          (optFrag SplitLowFragment lo ++ encList cpsO ++ optFrag SplitHighFragment hi) =
          (none, encList midCps, some (surrogateInternal h0)) := hcanon
      rw [push_wtf8_eq_ns _ _ _ _ hcanon2]
      rw [show HighSurrogate.decode (surrogateInternal h0) =
          (match Option.map surrogateInternal (some h0) with
            | some x => HighSurrogate.decode x | none => []) from rfl]
      exact heq2
    | none =>
      have hcanon2 : canonicalize
          (optFrag SplitLowFragment lo ++ encList cpsO ++ optFrag SplitHighFragment hi) =
          (none, encList midCps, none) := hcanon
      rw [push_wtf8_eq_nn _ _ _ hcanon2]
      rw [show (encList cpsB ++ encList midCps : List Nat) =
          (encList cpsB ++ encList midCps) ++
            (match Option.map surrogateInternal (none : Option Nat) with
              | some x => HighSurrogate.decode x | none => []) from by
        rw [show Option.map surrogateInternal (none : Option Nat) = none from rfl,
          List.append_nil]]
      exact heq2

end Wtf8

namespace Wtf8

theorem from_wide_cons_not_high (u : Nat) (rest : List Nat) (h : ¬isHigh u) :
    from_wide (u :: rest) = encodeUtf8 u ++ from_wide rest := by
  cases rest with
  | nil =>
    rw [from_wide_single, from_wide_nil, List.append_nil]
  | cons l rest2 =>
    rw [from_wide_two, if_neg h]

/-- Strong-induction core for `from_wide`: the result is a well-formed
encoding, and its code point list starts with a low surrogate only if the
input itself did. -/
theorem from_wide_canonical_aux : ∀ (n : Nat) (v : List Nat), v.length ≤ n →
    (∀ u ∈ v, u < 0x10000) →
    ∃ cps, WfCps cps ∧ from_wide v = encList cps ∧
      (∀ c, cps.head? = some c → isLow c → v.head? = some c) := by
  intro n
  induction n with
  | zero =>
    intro v hl hb
    have hv : v = [] := List.eq_nil_of_length_eq_zero (by omega)
    subst hv
    exact ⟨[], ⟨by simp, trivial⟩, rfl, by simp⟩
  | succ n ih =>
    intro v hl hb
    cases v with
    | nil => exact ⟨[], ⟨by simp, trivial⟩, rfl, by simp⟩
    | cons u rest =>
      have hu : u < 0x10000 := hb u (by simp)
      by_cases hih : isHigh u
      · cases rest with
        | nil =>
          refine ⟨[u], ⟨by intro x hx; simp at hx; omega, trivial⟩, ?_, ?_⟩
          · rw [from_wide_single, encList_singleton]
          · intro c hc hlc
            exact hc
        | cons l rest2 =>
          have hlb : l < 0x10000 := hb l (by simp)
          by_cases hil : isLow l
          · obtain ⟨cps2, hwf2, heq2, hhd2⟩ := ih rest2
              (by simp at hl ⊢; omega) (fun x hx => hb x (by simp [hx]))
            have hh1 : 0xd800 ≤ u := hih.1
            have hh2 : u < 0xdc00 := hih.2
            have hl1 : 0xdc00 ≤ l := hil.1
            have hl2 : l < 0xe000 := hil.2
            refine ⟨(0x10000 + (u - 0xd800) * 1024 + (l - 0xdc00)) :: cps2,
              ⟨?_, ?_⟩, ?_, ?_⟩
            · intro x hx
              rw [List.mem_cons] at hx
              rcases hx with hx | hx
              · omega
              · exact hwf2.1 x hx
            · cases cps2 with
              | nil => trivial
              | cons c2 r2 =>
                refine ⟨?_, hwf2.2⟩
                intro hand
                have hMh := hand.1.1
                have := hand.1.2
                omega
            · rw [from_wide_two, if_pos hih, if_pos hil, heq2, encList_cons]
            · intro c hc hlc
              have hce := Option.some.inj hc
              unfold isLow at hlc
              omega
          · obtain ⟨cps2, hwf2, heq2, hhd2⟩ := ih (l :: rest2)
              (by simp at hl ⊢; omega)
              (fun x hx => hb x (by simp at hx ⊢; tauto))
            refine ⟨u :: cps2, ⟨?_, ?_⟩, ?_, ?_⟩
            · intro x hx
              rw [List.mem_cons] at hx
              rcases hx with hx | hx
              · omega
              · exact hwf2.1 x hx
            · cases cps2 with
              | nil => trivial
              | cons c2 r2 =>
                refine ⟨?_, hwf2.2⟩
                intro hand
                have hc2l := hhd2 c2 rfl hand.2
                rw [List.head?_cons] at hc2l
                have := Option.some.inj hc2l
                subst this
                exact hil hand.2
            · rw [from_wide_two, if_pos hih, if_neg hil, heq2, encList_cons]
            · intro c hc hlc
              rw [List.head?_cons] at hc ⊢
              exact hc
      · obtain ⟨cps2, hwf2, heq2, hhd2⟩ := ih rest
          (by simp at hl ⊢; omega) (fun x hx => hb x (by simp [hx]))
        refine ⟨u :: cps2, ⟨?_, ?_⟩, ?_, ?_⟩
        · intro x hx
          rw [List.mem_cons] at hx
          rcases hx with hx | hx
          · omega
          · exact hwf2.1 x hx
        · cases cps2 with
          | nil => trivial
          | cons c2 r2 =>
            exact ⟨fun hand => hih hand.1, hwf2.2⟩
        · rw [from_wide_cons_not_high u rest hih, heq2, encList_cons]
        · intro c hc hlc
          rw [List.head?_cons] at hc ⊢
          exact hc

/-- `from_wide` always produces a canonical buffer. -/
theorem from_wide_canonical (v : List Nat) (hv : ∀ u ∈ v, u < 0x10000) :
    Canonical (from_wide v) := by
  obtain ⟨cps, hwf, heq, _⟩ := from_wide_canonical_aux v.length v (le_refl _) hv
  exact ⟨cps, hwf, heq⟩

/-- `push_str` of well-formed UTF-8 keeps the buffer canonical. -/
theorem push_str_canonical (b : List Nat) (cpsS : List Nat) (hb : Canonical b)
    (hs : ∀ c ∈ cpsS, c < 0x110000 ∧ ¬(0xd800 ≤ c ∧ c < 0xe000)) :
    Canonical (push_str b (encList cpsS)) := by
  obtain ⟨cpsB, ⟨hbound, hnp⟩, hbeq⟩ := hb
  refine ⟨cpsB ++ cpsS, ⟨?_, ?_⟩, ?_⟩
  · intro x hx
    rw [List.mem_append] at hx
    rcases hx with hx | hx
    · exact hbound x hx
    · exact (hs x hx).1
  · refine np_append_head_not_low hnp (np_of_no_surrogate fun x hx => (hs x hx).2) ?_
    intro x hx
    cases cpsS with
    | nil => simp at hx
    | cons c2 r2 =>
      rw [List.head?_cons] at hx
      have hxe := Option.some.inj hx
      subst hxe
      have hns := (hs c2 (by simp)).2
      unfold isLow
      omega
  · rw [hbeq, push_str, encList_append]

/-- `push_char` of a scalar value keeps the buffer canonical. -/
theorem push_char_canonical (b : List Nat) (c : Nat) (hb : Canonical b)
    (hc : c < 0x110000) (hsc : ¬(0xd800 ≤ c ∧ c < 0xe000)) :
    Canonical (push_char b c) := by
  obtain ⟨cpsB, ⟨hbound, hnp⟩, hbeq⟩ := hb
  refine ⟨cpsB ++ [c], ⟨?_, ?_⟩, ?_⟩
  · intro x hx
    rw [List.mem_append] at hx
    rcases hx with hx | hx
    · exact hbound x hx
    · simp at hx
      omega
  · refine np_append_head_not_low hnp trivial ?_
    intro x hx
    rw [List.head?_cons] at hx
    have := Option.some.inj hx
    subst this
    unfold isLow
    omega
  · rw [hbeq]
    unfold push_char push_code_point_unchecked
    rw [encList_append, encList_singleton]

end Wtf8

namespace Wtf8

theorem classify_cb_inv (l : List Nat) (n : Nat)
    (hc : classify_index l n = IndexType.CharBoundary) :
    n = 0 ∨ n = l.length ∨
      (n < l.length ∧ ¬(0x80 ≤ l.getD n 0 ∧ l.getD n 0 ≤ 0xbf)) := by
  by_cases h0 : n = 0 ∨ n = l.length
  · rcases h0 with h | h
    · exact Or.inl h
    · exact Or.inr (Or.inl h)
  · right; right
    cases hb : l[n]? with
    | none =>
      have hval : classify_index l n = IndexType.OutOfBounds := by
        simp [classify_index, h0, hb]
      rw [hc] at hval
      exact absurd hval (by decide)
    | some b =>
      have hlt : n < l.length := by
        by_contra hno
        rw [List.getElem?_eq_none (by omega)] at hb
        exact Option.noConfusion hb
      by_cases hcont : 0x80 ≤ b ∧ b ≤ 0xbf
      · exfalso
        cases hf : (List.range' ((n + 3) - l.length) ((min n 3) - ((n + 3) - l.length))).find?
            (fun off => 0xf0 ≤ l.getD (n - (off + 1)) 0) with
        | none =>
          have hval : classify_index l n = IndexType.Interior := by
            simp only [classify_index]
            rw [if_neg h0]
            simp only [hb]
            rw [if_pos hcont]
            simp only [hf]
          rw [hc] at hval
          exact absurd hval (by decide)
        | some off =>
          have hval : classify_index l n = IndexType.ofOffset (off + 1) := by
            simp only [classify_index]
            rw [if_neg h0]
            simp only [hb]
            rw [if_pos hcont]
            simp only [hf]
          rw [hc] at hval
          unfold IndexType.ofOffset at hval
          by_cases h1 : off + 1 = 1
          · rw [if_pos h1] at hval
            exact absurd hval (by decide)
          · rw [if_neg h1] at hval
            by_cases h2 : off + 1 = 2
            · rw [if_pos h2] at hval
              exact absurd hval (by decide)
            · rw [if_neg h2] at hval
              exact absurd hval (by decide)
      · refine ⟨hlt, ?_⟩
        have hbd : l.getD n 0 = b := by
          rw [List.getD_eq_getElem?_getD, hb]
          rfl
        rw [hbd]
        exact hcont

/-- Every byte position of a concatenated encoding falls inside the
encoding of one of the code points. -/
theorem encList_pos_decomp : ∀ (cps : List Nat) (p : Nat), p < (encList cps).length →
    ∃ cps1 c cps2 k, cps = cps1 ++ c :: cps2 ∧ k < (encodeUtf8 c).length ∧
      p = (encList cps1).length + k ∧
      (encList cps).getD p 0 = (encodeUtf8 c).getD k 0 := by
  intro cps
  induction cps with
  | nil =>
    intro p hp
    simp [encList] at hp
  | cons c cps2 ih =>
    intro p hp
    rw [encList_cons] at hp ⊢
    rw [List.length_append] at hp
    rcases Nat.lt_or_ge p (encodeUtf8 c).length with hsm | hge
    · refine ⟨[], c, cps2, p, by simp, hsm, by simp [encList], ?_⟩
      exact getD_append_left _ _ _ _ hsm
    · obtain ⟨cps1, c1, cps3, k, he1, he2, he3, he4⟩ :=
        ih (p - (encodeUtf8 c).length) (by omega)
      refine ⟨c :: cps1, c1, cps3, k, by rw [he1, List.cons_append], he2, ?_, ?_⟩
      · rw [encList_cons, List.length_append]
        omega
      · rw [show p = (encodeUtf8 c).length + (p - (encodeUtf8 c).length) from by omega,
          getD_append_right]
        exact he4

/-- On a canonical buffer a `CharBoundary` index is a code point
boundary. -/
theorem canonical_cb_boundary (cps : List Nat) (hbound : ∀ c ∈ cps, c < 0x110000) (n : Nat)
    (hc : classify_index (encList cps) n = IndexType.CharBoundary) :
    ∃ cps1 cps2, cps = cps1 ++ cps2 ∧ n = (encList cps1).length := by
  rcases classify_cb_inv _ _ hc with h | h | ⟨hlt, hnc⟩
  · exact ⟨[], cps, by simp, by rw [h]; rfl⟩
  · exact ⟨cps, [], by simp, h⟩
  · obtain ⟨cps1, c, cps2, k, he1, he2, he3, he4⟩ := encList_pos_decomp cps n hlt
    have hcb : c < 0x110000 := hbound c (by rw [he1]; simp)
    rcases Nat.eq_zero_or_pos k with hk0 | hkp
    · subst hk0
      exact ⟨cps1, c :: cps2, he1, by omega⟩
    · exfalso
      have hcont := enc_tail_cont c hcb k hkp he2
      rw [← he4] at hcont
      have h80 : (0x80 : Nat) ≤ 0x80 := le_refl _
      exact hnc ⟨hcont.1, hcont.2⟩

/-- On a canonical buffer a `FourByteSeq2` index sits two bytes into the
encoding of a supplementary code point. -/
theorem canonical_fbs2_pos (cps : List Nat) (hbound : ∀ c ∈ cps, c < 0x110000) (n : Nat)
    (hc : classify_index (encList cps) n = IndexType.FourByteSeq2) :
    ∃ cps1 c cps2, cps = cps1 ++ c :: cps2 ∧ 0x10000 ≤ c ∧
      n - 2 = (encList cps1).length ∧ 2 ≤ n := by
  obtain ⟨hn2, hnl, hf0⟩ := classify_fbs2_facts _ _ hc
  obtain ⟨cps1, c, cps2, k, he1, he2, he3, he4⟩ := encList_pos_decomp cps (n - 2) (by omega)
  have hcb : c < 0x110000 := hbound c (by rw [he1]; simp)
  have hk0 : k = 0 := by
    by_contra hk
    have hcont := enc_tail_cont c hcb k (by omega) he2
    rw [← he4] at hcont
    omega
  subst hk0
  have hhead := enc_head c hcb
  rw [← he4] at hhead
  exact ⟨cps1, c, cps2, he1, hhead.2.mp hf0, by omega, hn2⟩

/-- A nonempty canonical buffer never starts with a continuation byte. -/
theorem encList_front_not_cont (cps : List Nat) (hbound : ∀ c ∈ cps, c < 0x110000)
    (hne : cps ≠ []) :
    ¬(0x80 ≤ (encList cps).getD 0 0 ∧ (encList cps).getD 0 0 ≤ 0xbf) := by
  cases cps with
  | nil => exact absurd rfl hne
  | cons c cps2 =>
    rw [encList_cons]
    rw [getD_append_left _ _ _ _ (enc_length_pos c)]
    exact (enc_head c (hbound c (by simp))).1

theorem splitRepr_enc4 (c : Nat) (h1 : 0x10000 ≤ c) (h2 : c < 0x110000) :
    ThreeByteSeq.to_high_surrogate_from_split_repr_unchecked
      (ThreeByteSeq.new (0xf0 + c / 262144) (0x80 + c / 4096 % 64) (0x80 + c / 64 % 64)) =
      surrogateInternal (0xd800 + (c - 0x10000) / 1024) := by
  rw [tbs_val _ _ _ (by omega) (by omega)]
  rw [show (0xf0 + c / 262144) * 65536 + (0x80 + c / 4096 % 64) * 256 + (0x80 + c / 64 % 64) =
    (0xf0 + c / 64 / 4096) * 65536 + (0x80 + c / 64 / 64 % 64) * 256 + (0x80 + c / 64 % 64)
    from by omega]
  rw [splitRepr_enc (c / 64) (by omega) (by omega)]
  rw [show (c / 64 - 0x400) / 16 = (c - 0x10000) / 1024 from by omega]

/-- The `FourByteSeq2` arm of `truncate`, fully evaluated. -/
theorem truncate_fbs2_result (l : List Nat) (n : Nat)
    (hc : classify_index l n = IndexType.FourByteSeq2)
    (hfront : ¬(0x80 ≤ l.getD 0 0 ∧ l.getD 0 0 ≤ 0xbf)) :
    truncate l n = some (l.take (n - 2) ++
      HighSurrogate.decode (ThreeByteSeq.to_high_surrogate_from_split_repr_unchecked
        (window3 l (n - 2)))) := by
  obtain ⟨hn2, hnl, hf0⟩ := classify_fbs2_facts l n hc
  have ht : truncate l n = some (canonicalize_in_place (l.take (n + 1))) := by
    unfold truncate
    rw [hc]
  rw [ht]
  congr 1
  have hlt : (l.take (n + 1)).length = n + 1 := by
    simp
    omega
  have hg0 : (l.take (n + 1)).getD 0 0 = l.getD 0 0 := getD_take l (n + 1) 0 0 (by omega)
  simp only [canonicalize_in_place]
  rw [if_neg (show ¬((l.take (n + 1)).length < 3) from by rw [hlt]; omega)]
  rw [hg0, if_neg hfront]
  rw [hlt]
  rw [show n + 1 - 3 = n - 2 by omega, show n + 1 - 2 = n - 2 + 1 by omega,
    show n + 1 - 1 = n - 2 + 2 by omega]
  rw [getD_take l (n + 1) (n - 2) 0 (by omega)]
  rw [if_pos hf0]
  rw [show window3 (l.take (n + 1)) (n - 2) = window3 l (n - 2) from by
    unfold window3
    rw [getD_take l (n + 1) (n - 2) 0 (by omega),
      getD_take l (n + 1) (n - 2 + 1) 0 (by omega),
      getD_take l (n + 1) (n - 2 + 2) 0 (by omega)]]
  rw [set_last_three _ _ _ _ _ (show (l.take (n + 1)).length = (n - 2) + 3 from by
    rw [hlt]; omega)]
  rw [List.take_take, show min (n - 2) (n + 1) = n - 2 by omega]
  rfl

/-- `truncate` keeps the buffer canonical whenever it succeeds. -/
theorem truncate_canonical (b : List Nat) (n : Nat) (r : List Nat) (hb : Canonical b)
    (ht : truncate b n = some r) : Canonical r := by
  obtain ⟨cps, ⟨hbound, hnp⟩, hbeq⟩ := hb
  subst hbeq
  cases hcv : classify_index (encList cps) n with
  | CharBoundary =>
    have htc : truncate (encList cps) n = some ((encList cps).take n) := by
      unfold truncate
      rw [hcv]
    rw [htc] at ht
    obtain ⟨cps1, cps2, he1, he2⟩ := canonical_cb_boundary cps hbound n hcv
    have hr : r = encList cps1 := by
      rw [← Option.some.inj ht, he2, he1, encList_append, List.take_left]
    refine ⟨cps1, ⟨fun x hx => hbound x (by rw [he1]; simp [hx]), ?_⟩, hr⟩
    rw [he1] at hnp
    exact np_append_left hnp
  | FourByteSeq2 =>
    obtain ⟨cps1, c, cps2, he1, hcsup, he2, hn2⟩ := canonical_fbs2_pos cps hbound n hcv
    have hcb : c < 0x110000 := hbound c (by rw [he1]; simp)
    have hne : cps ≠ [] := by
      rw [he1]
      intro hx
      simp at hx
    have hfront := encList_front_not_cont cps hbound hne
    have ht2 := truncate_fbs2_result (encList cps) n hcv hfront
    rw [ht2] at ht
    have htk : (encList cps).take (n - 2) = encList cps1 := by
      rw [he1, encList_append, he2, List.take_left]
    have henc : encodeUtf8 c = [0xf0 + c / 262144, 0x80 + c / 4096 % 64,
        0x80 + c / 64 % 64, 0x80 + c % 64] := by
      unfold encodeUtf8
      rw [if_neg (by omega), if_neg (by omega), if_neg (by omega)]
    have hw : window3 (encList cps) (n - 2) =
        ThreeByteSeq.new (0xf0 + c / 262144) (0x80 + c / 4096 % 64) (0x80 + c / 64 % 64) := by
      rw [he1, encList_append, he2, window3_append0, encList_cons, henc]
      simp only [List.cons_append, List.nil_append]
      rw [window3_triple]
    have hr : r = encList cps1 ++ encodeUtf8 (0xd800 + (c - 0x10000) / 1024) := by
      rw [← Option.some.inj ht, htk, hw, splitRepr_enc4 c hcsup hcb,
        decode_surrogateInternal _ (by omega) (by omega)]
    refine ⟨cps1 ++ [0xd800 + (c - 0x10000) / 1024], ⟨?_, ?_⟩, ?_⟩
    · intro x hx
      rw [List.mem_append] at hx
      rcases hx with hx | hx
      · exact hbound x (by rw [he1]; simp [hx])
      · simp at hx
        omega
    · refine np_append_head_not_low ?_ trivial ?_
      · rw [he1] at hnp
        exact np_append_left hnp
      · intro x hx
        rw [List.head?_cons] at hx
        have hxe := Option.some.inj hx
        unfold isLow
        omega
    · rw [hr, encList_append, encList_singleton]
  | FourByteSeq1 =>
    have htc : truncate (encList cps) n = none := by
      unfold truncate
      rw [hcv]
    rw [htc] at ht
    exact Option.noConfusion ht
  | FourByteSeq3 =>
    have htc : truncate (encList cps) n = none := by
      unfold truncate
      rw [hcv]
    rw [htc] at ht
    exact Option.noConfusion ht
  | Interior =>
    have htc : truncate (encList cps) n = none := by
      unfold truncate
      rw [hcv]
    rw [htc] at ht
    exact Option.noConfusion ht
  | OutOfBounds =>
    have htc : truncate (encList cps) n = none := by
      unfold truncate
      rw [hcv]
    rw [htc] at ht
    exact Option.noConfusion ht

end Wtf8

namespace Wtf8

/-- C3: every public mutating operation on the owned buffer leaves it
canonical — well-formed WTF-8 (a concatenation of canonical code point
encodings with no high-then-low surrogate adjacency, hence no split-form
fragment at either edge).  Construction from UTF-8 (`from_str`,
`from_string`), appending UTF-8 (`push_str`), appending a scalar
(`push_char`), appending a valid OMG-WTF-8 slice (`push_wtf8`),
construction from UTF-16 code units (`from_wide`), and every successful
`truncate` all produce a `Canonical` buffer. -/
theorem c3_canonical_mutations :
    (∀ cps, (∀ c ∈ cps, c < 0x110000 ∧ ¬(0xd800 ≤ c ∧ c < 0xe000)) →
      Canonical (from_str (encList cps)) ∧ Canonical (from_string (encList cps)))
  ∧ (∀ b cps, Canonical b → (∀ c ∈ cps, c < 0x110000 ∧ ¬(0xd800 ≤ c ∧ c < 0xe000)) →
      Canonical (push_str b (encList cps)))
  ∧ (∀ b c, Canonical b → c < 0x110000 → ¬(0xd800 ≤ c ∧ c < 0xe000) →
      Canonical (push_char b c))
  ∧ (∀ b o, Canonical b → ValidOmg o → Canonical (push_wtf8 b o))
  ∧ (∀ v, (∀ u ∈ v, u < 0x10000) → Canonical (from_wide v))
  ∧ (∀ b n r, Canonical b → truncate b n = some r → Canonical r) := by
  refine ⟨?_, ?_, ?_, ?_, ?_, ?_⟩
  · intro cps h
    constructor <;>
      exact ⟨cps, ⟨fun c hc => (h c hc).1, np_of_no_surrogate fun c hc => (h c hc).2⟩, rfl⟩
  · intro b cps hb h
    exact push_str_canonical b cps hb h
  · intro b c hb h1 h2
    exact push_char_canonical b c hb h1 h2
  · intro b o hb ho
    exact push_wtf8_canonical b o hb ho
  · intro v hv
    exact from_wide_canonical v hv
  · intro b n r hb ht
    exact truncate_canonical b n r hb ht

/-- C3 witness: pushing U+1F4A9 onto the canonical buffer "A" yields a
canonical buffer. -/
theorem c3_canonical_mutations_witness :
    Canonical (push_char (encList [0x41]) 0x1f4a9) :=
  c3_canonical_mutations.2.2.1 (encList [0x41]) 0x1f4a9
    ⟨[0x41], ⟨by decide, trivial⟩, rfl⟩ (by norm_num) (by omega)

end Wtf8
